import Mathlib

/-!
# Verification of the mmids workflow runtime core

A shallow embedding, in Lean 4, of the core of the mmids media-routing
engine:

* the workflow runner (`src/mmids-core/src/workflows/runner.rs`):
  definition application, step execution, the pending/active swap
  protocol, stream-origin tracking and the per-step media cache;
* the reactor's executor-response handler
  (`src/mmids-core/src/reactors/reactor.rs`);
* the settings section of the configuration reader
  (`src/mmids-core/src/config.rs`).

Modelling conventions:

* Rust `HashMap`s are modelled as association lists (`List (κ × ν)`)
  with first-match lookup; `insert` replaces the first matching entry in
  place (appending a fresh entry otherwise) and `remove` drops every
  matching entry.  Iteration order over a `HashMap` is unspecified in
  Rust; the association-list order stands in for one arbitrary but fixed
  iteration order.  No theorem below depends on the relative order of
  distinct keys.
* Machine integers (`u64` step ids, opaque future tokens) are modelled
  as `Nat`; the runner never performs arithmetic on them, only equality
  comparison, so no overflow modelling is needed.
* A workflow step is a table entry carrying its definition id, its
  status, and an opaque internal state of type `σ`; the step's
  `execute` method is a parameter `exec : StepExec σ` of every runner
  operation, returning the updated step together with the produced
  outputs (the steps in the repository read, and do not mutate, their
  inputs).  For theorems that must observe what a step received, `σ` is
  instantiated with a log of input batches and `exec` with `recorder`.
* Channel sends performed by the reactor are modelled as an emitted
  effect list, in program order.
-/

/-! ## Association-list maps (the model of Rust `HashMap`) -/

def lookupA [DecidableEq κ] : List (κ × ν) → κ → Option ν
  | [], _ => none
  | (k', v) :: rest, k => if k' = k then some v else lookupA rest k

def insertA [DecidableEq κ] : List (κ × ν) → κ → ν → List (κ × ν)
  | [], k, v => [(k, v)]
  | (k', v') :: rest, k, v =>
      if k' = k then (k, v) :: rest else (k', v') :: insertA rest k v

def eraseA [DecidableEq κ] (l : List (κ × ν)) (k : κ) : List (κ × ν) :=
  l.filter (fun e => !(decide (e.1 = k)))

def containsA [DecidableEq κ] (l : List (κ × ν)) (k : κ) : Bool :=
  (lookupA l k).isSome

def keysA (l : List (κ × ν)) : List κ := l.map Prod.fst

def valuesA (l : List (κ × ν)) : List ν := l.map Prod.snd

/-! ## Media data model

`MediaNotification` and its content variants are declared in
`workflows/mod.rs`, which only the spec describes (§3); the fields below
follow the spec's list.  `StreamId` is an opaque identifier, modelled as
a string. -/

abbrev StreamId := String

inductive MediaNotificationContent where
  | newIncomingStream (stream_name : String)
  | streamDisconnected
  | metadata (data : List (String × String))
  | video (codec : String) (is_keyframe : Bool) (is_sequence_header : Bool)
      (timestamp : Nat) (bytes : List Nat)
  | audio (codec : String) (is_sequence_header : Bool)
      (timestamp : Nat) (bytes : List Nat)
deriving DecidableEq, Repr

structure MediaNotification where
  stream_id : StreamId
  content : MediaNotificationContent
deriving DecidableEq, Repr

/-! ## Steps

`StepStatus` is declared in `workflows/steps/mod.rs`, which is not part
of the sources given; the runner's exhaustive match in
`check_if_all_pending_steps_are_active` distinguishes exactly
`Created`, `Active` and `Error`, which are the variants modelled here.
A `WorkflowStep` table entry carries the id of its definition
(`get_definition().get_id()`), its status (`get_status()`), and opaque
internal state. -/

inductive StepStatus where
  | created
  | active
  | error
deriving DecidableEq, Repr

structure WorkflowStep (σ : Type) where
  defId : Nat
  status : StepStatus
  st : σ
deriving DecidableEq, Repr

structure StepInputs where
  media : List MediaNotification
  notifications : List Nat
deriving DecidableEq, Repr

structure StepOutputs where
  media : List MediaNotification
  futures : List Nat
deriving DecidableEq, Repr

def emptyInputs : StepInputs := { media := [], notifications := [] }

def emptyOutputs : StepOutputs := { media := [], futures := [] }

/-- A step's `execute` method: from the step (with its internal state)
and the input buffers, produce the updated step and the outputs.  Steps
in the repository read their inputs without mutating them. -/
abbrev StepExec (σ : Type) := WorkflowStep σ → StepInputs → WorkflowStep σ × StepOutputs

/-- The pure observer behaviour used to state what a step received: it
appends each incoming media batch to its log and produces nothing. -/
def recorder : StepExec (List (List MediaNotification)) :=
  fun step inputs => ({ step with st := step.st ++ [inputs.media] }, emptyOutputs)

/-! ## Workflow definitions

Modelled from the spec: `workflows/definitions.rs` is not among the
sources.  Per spec §3 a step definition determines a stable 64-bit
step-id as a pure function of its type and parameters; the id is
carried here as a field, and `get_id` reads it.  The runner consumes
definitions only through `get_id` and `step_type`. -/

structure WorkflowStepDefinition where
  id : Nat
  step_type : String
deriving DecidableEq, Repr

def WorkflowStepDefinition.get_id (d : WorkflowStepDefinition) : Nat := d.id

structure WorkflowDefinition where
  name : String
  steps : List WorkflowStepDefinition
deriving DecidableEq, Repr

/-! ## The workflow runner (`workflows/runner.rs`) -/

/-- `StreamDetails`: the step that first sent a new stream media
notification. -/
structure StreamDetails where
  originating_step_id : Nat
deriving DecidableEq, Repr

/-- The state of the runner actor (`struct Actor`), minus the channel
plumbing: the step table, the active and pending id lists, the
registered step futures (as `(step_id, token)` pairs in registration
order), the reusable input/output buffers, the per-step media cache and
the active-streams table. -/
structure RunnerState (σ : Type) where
  steps_by_definition_id : List (Nat × WorkflowStep σ)
  active_steps : List Nat
  pending_steps : List Nat
  futures : List (Nat × Nat)
  step_inputs : StepInputs
  step_outputs : StepOutputs
  cached_step_media : List (Nat × List (StreamId × List MediaNotification))
  active_streams : List (StreamId × StreamDetails)
deriving DecidableEq, Repr

/-- The state built by `Actor::new`: everything empty. -/
def initialActorState (σ : Type) : RunnerState σ :=
  { steps_by_definition_id := []
    active_steps := []
    pending_steps := []
    futures := []
    step_inputs := emptyInputs
    step_outputs := emptyOutputs
    cached_step_media := []
    active_streams := [] }

/-- The loop body of `update_stream_details`, folded over the produced
media: a `NewIncomingStream` for an unknown stream registers it as
originating at the current step; a `StreamDisconnected` from the
originating step removes it; everything else is ignored. -/
def updateStreamDetailsList (current : Nat)
    (streams : List (StreamId × StreamDetails)) (media : List MediaNotification) :
    List (StreamId × StreamDetails) :=
  media.foldl (fun streams m =>
    match m.content with
    | .video _ _ _ _ _ => streams
    | .audio _ _ _ _ => streams
    | .metadata _ => streams
    | .newIncomingStream _ =>
        if containsA streams m.stream_id then streams
        else insertA streams m.stream_id { originating_step_id := current }
    | .streamDisconnected =>
        match lookupA streams m.stream_id with
        | some details =>
            if details.originating_step_id = current then eraseA streams m.stream_id
            else streams
        | none => streams) streams

def update_stream_details (s : RunnerState σ) (current_step_id : Nat) : RunnerState σ :=
  let streams := updateStreamDetailsList current_step_id s.active_streams s.step_outputs.media
  { s with active_streams := streams }

/-- The `Operation` enum local to `update_media_cache_from_outputs`. -/
inductive CacheOperation where
  | add
  | remove
  | ignore
deriving DecidableEq, Repr

/-- Which cache operation a media notification triggers
(`update_media_cache_from_outputs`, match on `media.content`). -/
def cacheOperationFor : MediaNotificationContent → CacheOperation
  | .streamDisconnected => .remove
  | .newIncomingStream _ => .add
  | .metadata _ => .ignore
  | .video _ _ is_sequence_header _ _ =>
      if is_sequence_header then .add else .ignore
  | .audio _ is_sequence_header _ _ =>
      if is_sequence_header then .add else .ignore

/-- The loop of `update_media_cache_from_outputs` over one step's cache
(`step_cache`): add appends to the per-stream vector (creating it when
absent), remove drops the stream's entry, ignore does nothing. -/
def updateMediaCacheList (cache : List (StreamId × List MediaNotification))
    (media : List MediaNotification) : List (StreamId × List MediaNotification) :=
  media.foldl (fun c m =>
    match cacheOperationFor m.content with
    | .ignore => c
    | .remove => eraseA c m.stream_id
    | .add => insertA c m.stream_id ((lookupA c m.stream_id).getD [] ++ [m])) cache

/-- `update_media_cache_from_outputs`: fetch (or create, via
`entry(..).or_insert`) the executing step's cache and fold the produced
media through it. -/
def update_media_cache_from_outputs (s : RunnerState σ) (step_id : Nat) : RunnerState σ :=
  let step_cache := (lookupA s.cached_step_media step_id).getD []
  let cache := insertA s.cached_step_media step_id
    (updateMediaCacheList step_cache s.step_outputs.media)
  { s with cached_step_media := cache }

/-- `execute_step`: look the step up (an unknown id only logs and
returns), run its `execute`, register produced futures under the step's
definition id, update stream details and the media cache from the
outputs, then move the output media into the input buffer for the next
step and clear the outputs. -/
def execute_step (exec : StepExec σ) (s : RunnerState σ) (step_id : Nat) : RunnerState σ :=
  match lookupA s.steps_by_definition_id step_id with
  | none => s
  | some step =>
      let res := exec step s.step_inputs
      let step' := res.1
      let outs := res.2
      let s1 : RunnerState σ :=
        { s with
          steps_by_definition_id := insertA s.steps_by_definition_id step_id step'
          futures := s.futures ++ outs.futures.map (fun f => (step'.defId, f))
          step_outputs := { media := outs.media, futures := [] } }
      let s2 := update_stream_details s1 step_id
      let s3 := update_media_cache_from_outputs s2 step_id
      { s3 with
        step_inputs := { media := s3.step_outputs.media, notifications := [] }
        step_outputs := emptyOutputs }

/-- `execute_steps` without its final pending check (the entry point is
split so that the swap's replay pass, which passes
`perform_pending_check = false`, shares it): optionally clear the input
buffer, clear the output buffer, push an optional future result, then
either walk the active list from the initial step's position or execute
the step standalone.  `execute_step` never modifies `active_steps`, so
the walked suffix is captured up front. -/
def executeStepsCore (exec : StepExec σ) (s : RunnerState σ) (initial_step_id : Nat)
    (future_result : Option Nat) (preserve_current_step_inputs : Bool) : RunnerState σ :=
  let s := if preserve_current_step_inputs then s else { s with step_inputs := emptyInputs }
  let s := { s with step_outputs := emptyOutputs }
  let s := match future_result with
    | some r =>
        let inputs := { s.step_inputs with
          notifications := s.step_inputs.notifications ++ [r] }
        { s with step_inputs := inputs }
    | none => s
  match s.active_steps.findIdx? (fun x => x == initial_step_id) with
  | some start_index =>
      (s.active_steps.drop start_index).foldl (fun s id => execute_step exec s id) s
  | none => execute_step exec s initial_step_id

/-- The scan at the top of `check_if_all_pending_steps_are_active`:
`none` models the early `return`s (a pending id missing from the table,
or a step in `Error` status); `some any_pending` reports whether some
pending step is still `Created`. -/
def pendingScanList (table : List (Nat × WorkflowStep σ)) :
    List Nat → Bool → Option Bool
  | [], acc => some acc
  | id :: rest, acc =>
      match lookupA table id with
      | none => none
      | some step =>
          match step.status with
          | .created => pendingScanList table rest true
          | .active => pendingScanList table rest acc
          | .error => none

def pendingScan (s : RunnerState σ) : Option Bool :=
  pendingScanList s.steps_by_definition_id s.pending_steps false

/-- One iteration of the inner loop of the swap's removal pass for one
stream key: clear the buffers, push a synthesized `StreamDisconnected`,
and execute the step. -/
def driveBody (exec : StepExec σ) (key : StreamId) (s : RunnerState σ) (tid : Nat) :
    RunnerState σ :=
  let s : RunnerState σ :=
    { s with
      step_outputs := emptyOutputs
      step_inputs :=
        { media := [{ stream_id := key, content := .streamDisconnected }]
          notifications := [] } }
  execute_step exec s tid

/-- The inner loop of the swap's removal pass for one stream key:
drive the synthesized disconnect through each step in `targets` (the
active steps strictly to the right of the removed step's position). -/
def driveStreamDisconnected (exec : StepExec σ) (s : RunnerState σ)
    (key : StreamId) (targets : List Nat) : RunnerState σ :=
  targets.foldl (driveBody exec key) s

/-- One iteration of the removal pass's per-key loop: when the stream
keyed by the removed step's cache originates from that step, drive the
disconnect through the right-hand steps and drop the stream. -/
def cleanupKeyBody (exec : StepExec σ) (step_id : Nat) (targets : List Nat)
    (s : RunnerState σ) (key : StreamId) : RunnerState σ :=
  match lookupA s.active_streams key with
  | none => s
  | some stream =>
      if stream.originating_step_id = step_id then
        let s := driveStreamDisconnected exec s key targets
        { s with active_streams := eraseA s.active_streams key }
      else s

/-- The body of the swap's removal pass for one active-but-not-pending
step: delete it from the step table, take and drop its media cache, and
for every cached stream originating from it drive a synthesized
disconnect through the active steps to the right, then remove the
stream from the active-streams table. -/
def removeStepCleanup (exec : StepExec σ) (s : RunnerState σ)
    (index : Nat) (step_id : Nat) : RunnerState σ :=
  let s : RunnerState σ :=
    { s with steps_by_definition_id := eraseA s.steps_by_definition_id step_id }
  match lookupA s.cached_step_media step_id with
  | none => s
  | some cache =>
      let s : RunnerState σ :=
        { s with cached_step_media := eraseA s.cached_step_media step_id }
      let targets := s.active_steps.drop (index + 1)
      (keysA cache).foldl (cleanupKeyBody exec step_id targets) s

/-- One iteration of the removal pass: skip steps that stay pending,
clean up the rest. -/
def removalBody (exec : StepExec σ) (s : RunnerState σ) (index : Nat) : RunnerState σ :=
  let step_id := s.active_steps.getD index 0
  if s.pending_steps.contains step_id then s
  else removeStepCleanup exec s index step_id

/-- The removal pass of the swap (`for index in (0..active.len()).rev()`). -/
def removalPass (exec : StepExec σ) (s : RunnerState σ) : RunnerState σ :=
  (List.range s.active_steps.length).reverse.foldl (removalBody exec) s

/-- One iteration of the insertion replay pass (`for index in
1..pending.len()`): a pending step that is not in the active list is
fed the concatenation of its pending-predecessor's cached per-stream
notification vectors through `execute_steps` with
`perform_pending_check = false`. -/
def replayBody (exec : StepExec σ) (s : RunnerState σ) (index : Nat) : RunnerState σ :=
  let current_step_id := s.pending_steps.getD index 0
  let previous_step_id := s.pending_steps.getD (index - 1) 0
  if s.active_steps.contains current_step_id then s
  else
    match lookupA s.cached_step_media previous_step_id with
    | none => s
    | some cache =>
        let notifications := (valuesA cache).flatten
        let s : RunnerState σ :=
          { s with step_inputs := { media := notifications, notifications := [] } }
        executeStepsCore exec s current_step_id none true

/-- The insertion replay pass of the swap. -/
def replayPass (exec : StepExec σ) (s : RunnerState σ) : RunnerState σ :=
  (List.range' 1 (s.pending_steps.length - 1)).foldl (replayBody exec) s

/-- `check_if_all_pending_steps_are_active`: scan the pending list; if
there are pending steps and all report `Active`, run the removal pass,
the replay pass, then swap the pending and active lists and clear the
new pending list. -/
def check_if_all_pending_steps_are_active (exec : StepExec σ) (s : RunnerState σ) :
    RunnerState σ :=
  match pendingScan s with
  | none => s
  | some any_pending =>
      if 0 < s.pending_steps.length ∧ any_pending = false then
        let s := removalPass exec s
        let s := replayPass exec s
        { s with active_steps := s.pending_steps, pending_steps := [] }
      else s

/-- `execute_steps` proper: the traversal followed, when requested, by
the pending check. -/
def execute_steps (exec : StepExec σ) (s : RunnerState σ) (initial_step_id : Nat)
    (future_result : Option Nat) (preserve_current_step_inputs : Bool)
    (perform_pending_check : Bool) : RunnerState σ :=
  let s := executeStepsCore exec s initial_step_id future_result preserve_current_step_inputs
  if perform_pending_check then check_if_all_pending_steps_are_active exec s else s

/-- The step factory boundary: build a step and its initial futures
from a definition, or fail.  The two error layers of
`step_factory.create_step` (factory error, generator error) both make
`apply_new_definition` log and return, so they are collapsed into
`none`. -/
abbrev StepFactory (σ : Type) :=
  WorkflowStepDefinition → Option (WorkflowStep σ × List Nat)

/-- The loop of `apply_new_definition` over the definition's steps:
push each id onto pending; construct steps with unknown ids through the
factory, registering their initial futures; a construction failure
returns immediately, abandoning the rest of the definition. -/
def applySteps (factory : StepFactory σ) :
    RunnerState σ → List WorkflowStepDefinition → RunnerState σ
  | s, [] => s
  | s, d :: rest =>
      let id := d.get_id
      let s : RunnerState σ := { s with pending_steps := s.pending_steps ++ [id] }
      if containsA s.steps_by_definition_id id then applySteps factory s rest
      else
        match factory d with
        | none => s
        | some (step, futs) =>
            let s : RunnerState σ :=
              { s with
                futures := s.futures ++ futs.map (fun f => (id, f))
                steps_by_definition_id := insertA s.steps_by_definition_id id step }
            applySteps factory s rest

/-- `apply_new_definition`: clear the pending list, then process the
definition's steps in order. -/
def apply_new_definition (factory : StepFactory σ) (s : RunnerState σ)
    (definition : WorkflowDefinition) : RunnerState σ :=
  applySteps factory { s with pending_steps := [] } definition.steps

/-- The `UpdateDefinition` request handler. -/
def handle_workflow_request (factory : StepFactory σ) (s : RunnerState σ)
    (new_definition : WorkflowDefinition) : RunnerState σ :=
  apply_new_definition factory s new_definition

/-- The run-loop reaction to `FutureResult::StepFutureResolved`. -/
def handleStepFutureResolved (exec : StepExec σ) (s : RunnerState σ)
    (step_id : Nat) (result : Nat) : RunnerState σ :=
  execute_steps exec s step_id (some result) false true

/-! ## The reactor (`reactors/reactor.rs`)

Only the state the executor-response handler touches is modelled:
whether a workflow-manager channel is registered, the per-stream cached
workflow definitions, the per-stream response channel lists (channels
as opaque tokens), plus the reactor's name and update interval.  Sends
on channels and timer registrations become an effect list in program
order. -/

structure CachedWorkflow where
  definition : WorkflowDefinition
deriving DecidableEq, Repr

structure ReactorState where
  name : String
  workflow_manager : Bool
  cached_workflows_for_stream_name : List (String × CachedWorkflow)
  update_interval : Nat
  stream_response_channels : List (String × List Nat)
deriving DecidableEq, Repr

inductive WorkflowManagerRequestOperation where
  | upsertWorkflow (definition : WorkflowDefinition)
  | stopWorkflow (name : String)
deriving DecidableEq, Repr

structure WorkflowManagerRequest where
  request_id : String
  operation : WorkflowManagerRequestOperation
deriving DecidableEq, Repr

inductive ReactorEffect where
  | toManager (request : WorkflowManagerRequest)
  | toResponseChannel (channel : Nat) (workflow_name : Option String)
  | scheduleUpdate (stream_name : String)
deriving DecidableEq, Repr

/-- `format!("reactor_{}_stream_{}", self.name, stream_name)`. -/
def requestIdFor (reactorName stream_name : String) : String :=
  "reactor_" ++ reactorName ++ "_stream_" ++ stream_name

/-- `handle_executor_response`.  `Some(workflow)`: stop the old
workflow if the cached name differs (and a manager is registered),
update or insert the cache entry, upsert the new workflow, notify every
response channel with the new name, and schedule a re-poll when the
update interval is non-zero.  `None`: notify and drop every response
channel for the stream, drop the cache entry, and, if one existed, stop
its workflow. -/
def handle_executor_response (s : ReactorState) (stream_name : String)
    (workflow : Option WorkflowDefinition) : ReactorState × List ReactorEffect :=
  match workflow with
  | some w =>
      let workflow_name := w.name
      let stopEffects :=
        match lookupA s.cached_workflows_for_stream_name stream_name with
        | some cache =>
            if cache.definition.name ≠ workflow_name ∧ s.workflow_manager then
              [ReactorEffect.toManager
                { request_id := requestIdFor s.name stream_name
                  operation := .stopWorkflow cache.definition.name }]
            else []
        | none => []
      let s : ReactorState := { s with
        cached_workflows_for_stream_name :=
          insertA s.cached_workflows_for_stream_name stream_name { definition := w } }
      let upsertEffects :=
        if s.workflow_manager then
          [ReactorEffect.toManager
            { request_id := requestIdFor s.name stream_name
              operation := .upsertWorkflow w }]
        else []
      let channelEffects :=
        ((lookupA s.stream_response_channels stream_name).getD []).map
          (fun c => ReactorEffect.toResponseChannel c (some workflow_name))
      let timerEffects :=
        if s.update_interval ≠ 0 then [ReactorEffect.scheduleUpdate stream_name] else []
      (s, stopEffects ++ upsertEffects ++ channelEffects ++ timerEffects)
  | none =>
      let channelEffects :=
        ((lookupA s.stream_response_channels stream_name).getD []).map
          (fun c => ReactorEffect.toResponseChannel c none)
      let s : ReactorState := { s with
        stream_response_channels := eraseA s.stream_response_channels stream_name }
      match lookupA s.cached_workflows_for_stream_name stream_name with
      | some cache =>
          let s : ReactorState := { s with
            cached_workflows_for_stream_name :=
              eraseA s.cached_workflows_for_stream_name stream_name }
          let stopEffects :=
            if s.workflow_manager then
              [ReactorEffect.toManager
                { request_id := requestIdFor s.name stream_name
                  operation := .stopWorkflow cache.definition.name }]
            else []
          (s, channelEffects ++ stopEffects)
      | none => (s, channelEffects)

/-! ## The settings section of the config reader (`config.rs`)

An argument inside a child node is, per the grammar, a flag, a quoted
string, or a `KEY=VALUE` pair; `read_argument` maps the first two to
`(text, None)` and the last to `(key, Some value)`.  `read_child_node`
collects the arguments into a `HashMap`, so a later argument with the
same key replaces an earlier one. -/

inductive SettingArgument where
  | flag (text : String)
  | quotedString (text : String)
  | keyValuePair (key : String) (value : String)
deriving DecidableEq, Repr

/-- `read_argument`. -/
def read_argument : SettingArgument → String × Option String
  | .flag text => (text, none)
  | .quotedString text => (text, none)
  | .keyValuePair key value => (key, some value)

/-- The argument map built by `read_child_node`. -/
def readChildNodeArgs (args : List SettingArgument) : List (String × Option String) :=
  args.foldl (fun m a =>
    let kv := read_argument a
    insertA m kv.1 kv.2) []

/-- A parsed `child_node` inside a `settings` block: its name, the line
it starts on, and its arguments in textual order. -/
structure ChildNode where
  name : String
  line : Nat
  arguments : List SettingArgument
deriving DecidableEq, Repr

/-- The configuration errors `read_settings` can produce. -/
inductive ConfigParseError where
  | argumentsSpecifiedOnSettingNode (line : Nat)
  | tooManySettingArguments (line : Nat)
  | invalidSettingArgumentFormat (line : Nat)
deriving DecidableEq, Repr

/-- The `Rule::child_node` arm of `read_settings` for one child: more
than one entry in the argument map is `TooManySettingArguments`; a
single entry with a value (a `KEY=VALUE` argument) is
`InvalidSettingArgumentFormat`; a single valueless entry records
`name ↦ Some key`; no entry records `name ↦ None`. -/
def readSettingsChild (settings : List (String × Option String)) (c : ChildNode) :
    Except ConfigParseError (List (String × Option String)) :=
  let arguments := readChildNodeArgs c.arguments
  if 1 < arguments.length then .error (.tooManySettingArguments c.line)
  else
    match (keysA arguments).head? with
    | some key =>
        match lookupA arguments key with
        | some (some _) => .error (.invalidSettingArgumentFormat c.line)
        | _ => .ok (insertA settings c.name (some key))
    | none => .ok (insertA settings c.name none)

/-- A `pair` inside the `settings` node block: either a child node or a
stray argument on the `settings` header. -/
inductive SettingsPair where
  | childNode (c : ChildNode)
  | argument (line : Nat)
deriving DecidableEq, Repr

/-- `read_settings`: fold the children into the settings map; an
argument on the settings node itself is an error. -/
def read_settings (settings : List (String × Option String)) :
    List SettingsPair → Except ConfigParseError (List (String × Option String))
  | [] => .ok settings
  | .childNode c :: rest =>
      match readSettingsChild settings c with
      | .ok settings => read_settings settings rest
      | .error e => .error e
  | .argument line :: _ => .error (.argumentsSpecifiedOnSettingNode line)

/-! ## Association-list lemmas -/

theorem lookupA_insertA_self [DecidableEq κ] (l : List (κ × ν)) (k : κ) (v : ν) :
    lookupA (insertA l k v) k = some v := by
  induction l with
  | nil => simp [insertA, lookupA]
  | cons e rest ih =>
      obtain ⟨k', v'⟩ := e
      by_cases h : k' = k
      · simp [insertA, h, lookupA]
      · simp [insertA, h, lookupA, ih]

theorem lookupA_insertA_ne [DecidableEq κ] (l : List (κ × ν)) (k k' : κ) (v : ν)
    (h : k' ≠ k) : lookupA (insertA l k v) k' = lookupA l k' := by
  induction l with
  | nil => simp [insertA, lookupA, Ne.symm h]
  | cons e rest ih =>
      obtain ⟨a, b⟩ := e
      by_cases ha : a = k
      · subst ha
        simp [insertA, lookupA, Ne.symm h]
      · simp [insertA, ha, lookupA, ih]

theorem lookupA_eraseA [DecidableEq κ] (l : List (κ × ν)) (k k' : κ) :
    lookupA (eraseA l k) k' = if k' = k then none else lookupA l k' := by
  induction l with
  | nil => simp [eraseA, lookupA]
  | cons e rest ih =>
      obtain ⟨a, b⟩ := e
      by_cases ha : a = k
      · subst ha
        by_cases hk : k' = a
        · subst hk
          simpa [eraseA, List.filter_cons, lookupA] using ih
        · simpa [eraseA, List.filter_cons, lookupA, hk, Ne.symm hk] using ih
      · by_cases hk : a = k'
        · subst hk
          have hne : ¬(a = k) := ha
          simp [eraseA, List.filter_cons, lookupA, hne, Ne.symm hne]
        · simpa [eraseA, List.filter_cons, lookupA, ha, hk] using ih

theorem lookupA_eraseA_self [DecidableEq κ] (l : List (κ × ν)) (k : κ) :
    lookupA (eraseA l k) k = none := by
  simp [lookupA_eraseA]

theorem lookupA_eraseA_ne [DecidableEq κ] (l : List (κ × ν)) (k k' : κ) (h : k' ≠ k) :
    lookupA (eraseA l k) k' = lookupA l k' := by
  simp [lookupA_eraseA, h]

theorem containsA_insertA_self [DecidableEq κ] (l : List (κ × ν)) (k : κ) (v : ν) :
    containsA (insertA l k v) k = true := by
  simp [containsA, lookupA_insertA_self]

theorem containsA_insertA_ne [DecidableEq κ] (l : List (κ × ν)) (k k' : κ) (v : ν)
    (h : k' ≠ k) : containsA (insertA l k v) k' = containsA l k' := by
  simp [containsA, lookupA_insertA_ne _ _ _ _ h]

theorem mem_keysA_of_lookupA [DecidableEq κ] (l : List (κ × ν)) (k : κ) (v : ν)
    (h : lookupA l k = some v) : k ∈ keysA l := by
  induction l with
  | nil => simp [lookupA] at h
  | cons e rest ih =>
      obtain ⟨a, b⟩ := e
      by_cases ha : a = k
      · simp [keysA, ha]
      · simp only [lookupA, if_neg ha] at h
        have hmem := ih h
        simp only [keysA, List.map_cons] at hmem ⊢
        exact List.mem_cons_of_mem _ hmem

theorem mem_keysA_of_containsA [DecidableEq κ] (l : List (κ × ν)) (k : κ)
    (h : containsA l k = true) : k ∈ keysA l := by
  simp only [containsA, Option.isSome_iff_exists] at h
  obtain ⟨v, hv⟩ := h
  exact mem_keysA_of_lookupA l k v hv

/-! ## Generic fold lemmas -/

theorem foldl_preserve {α : Type u} {β : Type v} {P : α → Prop} {f : α → β → α}
    {l : List β} (h : ∀ s b, b ∈ l → P s → P (f s b)) :
    ∀ s, P s → P (l.foldl f s) := by
  induction l with
  | nil => intro s hs; simpa using hs
  | cons x xs ih =>
      intro s hs
      simp only [List.foldl_cons]
      exact ih (fun s b hb => h s b (List.mem_cons_of_mem _ hb)) _
        (h s x (List.mem_cons_self _ _) hs)

theorem foldl_take_drop {α : Type u} {β : Type v} (f : α → β → α) (l : List β)
    (k : Nat) (s : α) :
    l.foldl f s = (l.drop k).foldl f ((l.take k).foldl f s) := by
  conv_lhs => rw [← List.take_append_drop k l]
  rw [List.foldl_append]

/-! ## The recorder behaviour, characterized -/

/-- Executing a step under the `recorder` behaviour: the step's log
gains the current input media batch, the step's cache entry is created
when absent (via `entry(..).or_insert`) but its contents never change,
and the buffers are left cleared.  Nothing else moves. -/
theorem execute_step_recorder (s : RunnerState (List (List MediaNotification))) (tid : Nat) :
    execute_step recorder s tid =
      match lookupA s.steps_by_definition_id tid with
      | none => s
      | some stp =>
          { s with
            steps_by_definition_id :=
              insertA s.steps_by_definition_id tid
                { stp with st := stp.st ++ [s.step_inputs.media] }
            cached_step_media :=
              insertA s.cached_step_media tid ((lookupA s.cached_step_media tid).getD [])
            step_inputs := emptyInputs
            step_outputs := emptyOutputs } := by
  cases h : lookupA s.steps_by_definition_id tid <;>
    simp [execute_step, h, recorder, update_stream_details, update_media_cache_from_outputs,
      updateStreamDetailsList, updateMediaCacheList, emptyInputs, emptyOutputs]

/-! ## The media-cache policy (claim C5) -/

/-- The per-notification cache update exactly as the spec's policy
table states it: `NewIncomingStream` and sequence-header `Video`/`Audio`
notifications are appended to the stream's cache vector; non-header
`Video`/`Audio` and `Metadata` change nothing; `StreamDisconnected`
drops the stream's entry. -/
def mediaCachePolicy (cache : List (StreamId × List MediaNotification))
    (m : MediaNotification) : List (StreamId × List MediaNotification) :=
  match m.content with
  | .newIncomingStream _ =>
      insertA cache m.stream_id ((lookupA cache m.stream_id).getD [] ++ [m])
  | .video _ _ true _ _ =>
      insertA cache m.stream_id ((lookupA cache m.stream_id).getD [] ++ [m])
  | .audio _ true _ _ =>
      insertA cache m.stream_id ((lookupA cache m.stream_id).getD [] ++ [m])
  | .video _ _ false _ _ => cache
  | .audio _ false _ _ => cache
  | .metadata _ => cache
  | .streamDisconnected => eraseA cache m.stream_id

theorem updateMediaCacheList_eq_policy (l : List MediaNotification) :
    ∀ c, updateMediaCacheList c l = l.foldl mediaCachePolicy c := by
  induction l with
  | nil => intro c; rfl
  | cons m rest ih =>
      intro c
      have hstep : updateMediaCacheList c (m :: rest)
          = updateMediaCacheList (mediaCachePolicy c m) rest := by
        simp only [updateMediaCacheList, List.foldl_cons]
        congr 1
        rcases m with ⟨sid, mc⟩
        cases mc with
        | newIncomingStream n => simp [cacheOperationFor, mediaCachePolicy]
        | streamDisconnected => simp [cacheOperationFor, mediaCachePolicy]
        | metadata d => simp [cacheOperationFor, mediaCachePolicy]
        | video c2 kf ish t b => cases ish <;> simp [cacheOperationFor, mediaCachePolicy]
        | audio c2 ish t b => cases ish <;> simp [cacheOperationFor, mediaCachePolicy]
      rw [hstep, ih, List.foldl_cons]

/-- **C5.** For every step and every batch of step outputs, updating
that step's media cache behaves exactly as the spec's policy:
`NewIncomingStream` and sequence-header `Video`/`Audio` notifications
are appended to the cache list for their `stream_id`; non-header
`Video`/`Audio` and all `Metadata` notifications leave the cache
unchanged; a `StreamDisconnected` removes that stream's cache entry.
The step's cache entry is written back in place (created when absent),
and nothing else in the runner state changes. -/
theorem c5_media_cache_policy {σ : Type} (s : RunnerState σ) (step_id : Nat) :
    update_media_cache_from_outputs s step_id
      = { s with cached_step_media :=
                   insertA s.cached_step_media step_id
                     (s.step_outputs.media.foldl mediaCachePolicy
                       ((lookupA s.cached_step_media step_id).getD [])) } := by
  simp [update_media_cache_from_outputs, updateMediaCacheList_eq_policy]

/-! ## Claim C10: an empty redefinition -/

/-- **C10.** Applying a definition with an empty step list clears the
pending list and changes nothing else; and the swap check on the
resulting state is a no-op (the swap requires a non-empty pending
list), so the active list, step table, media caches and active streams
survive any empty redefinition. -/
theorem c10_empty_definition {σ : Type} (factory : StepFactory σ) (exec : StepExec σ)
    (s : RunnerState σ) (nm : String) :
    apply_new_definition factory s { name := nm, steps := [] }
        = { s with pending_steps := [] }
      ∧ check_if_all_pending_steps_are_active exec { s with pending_steps := ([] : List Nat) }
        = { s with pending_steps := [] } := by
  refine ⟨rfl, ?_⟩
  simp [check_if_all_pending_steps_are_active, pendingScan, pendingScanList]

/-! ## Claim C7: executor returns None -/

/-- **C7.** When the executor reports no workflow for a stream name:
every response channel registered for that stream receives a `None`
update, the stream's channel list is dropped, the cache entry is
removed, and exactly when a cache entry existed and a manager channel
is registered, a `StopWorkflow` naming the cached definition is sent to
the manager. -/
theorem c7_executor_none (s : ReactorState) (stream_name : String) :
    (handle_executor_response s stream_name none).2
        = ((lookupA s.stream_response_channels stream_name).getD []).map
              (fun c => ReactorEffect.toResponseChannel c none)
          ++ (match lookupA s.cached_workflows_for_stream_name stream_name with
              | some cache =>
                  if s.workflow_manager then
                    [ReactorEffect.toManager
                      { request_id := requestIdFor s.name stream_name
                        operation := .stopWorkflow cache.definition.name }]
                  else []
              | none => [])
      ∧ lookupA (handle_executor_response s stream_name none).1.stream_response_channels
          stream_name = none
      ∧ lookupA (handle_executor_response s stream_name none).1.cached_workflows_for_stream_name
          stream_name = none := by
  cases hc : lookupA s.cached_workflows_for_stream_name stream_name <;>
    simp [handle_executor_response, hc, lookupA_eraseA_self]

/-! ## Claim C9: settings children -/

/-- A settings child with the same flag written twice: two arguments in
the source text, but `read_child_node` collects arguments into a map
keyed by the argument's key, so the duplicate collapses. -/
def c9ChildDup : ChildNode :=
  { name := "foo", line := 7, arguments := [.flag "a", .flag "a"] }

/-- **C9, counterexample.** `c9ChildDup` carries two arguments, yet
`read_settings` accepts it as `foo ↦ Some "a"` instead of failing with
`TooManySettingArguments`: the claim's "more than one argument yields
error TooManySettingArguments" is false for arguments sharing a key. -/
theorem c9_counterexample :
    readSettingsChild [] c9ChildDup = .ok [("foo", some "a")]
      ∧ 1 < c9ChildDup.arguments.length := by
  exact ⟨rfl, by decide⟩

/-- **C9, amended.** For every child node inside a settings block, the
outcome is determined by the child's *argument map* (arguments are
collected into a map keyed by the argument's key, so same-key
duplicates collapse): an empty map yields `name ↦ None`; a single
valueless entry (a flag or quoted argument) yields
`name ↦ Some key`; a single entry carrying a value (a `KEY=VALUE`
argument) yields `InvalidSettingArgumentFormat`; two or more entries
yield `TooManySettingArguments`; each error carries the child's line
number. -/
theorem c9_amended (settings : List (String × Option String)) (c : ChildNode) :
    readSettingsChild settings c
      = match readChildNodeArgs c.arguments with
        | [] => .ok (insertA settings c.name none)
        | [(key, none)] => .ok (insertA settings c.name (some key))
        | [(_, some _)] => .error (.invalidSettingArgumentFormat c.line)
        | _ => .error (.tooManySettingArguments c.line) := by
  cases h : readChildNodeArgs c.arguments with
  | nil => simp [readSettingsChild, h, keysA, lookupA]
  | cons e rest =>
      obtain ⟨key, val⟩ := e
      cases rest with
      | nil => cases val <;> simp [readSettingsChild, h, keysA, lookupA]
      | cons e2 rest2 =>
          simp only [readSettingsChild, h]
          rw [if_pos (by simp only [List.length_cons]; omega)]

/-! ## Claim C6: executor returns a workflow with a different name -/

/-- **C6.** When the executor returns `Some w` for a stream whose
cached definition has a different name, and a manager channel is
registered: the reactor sends `StopWorkflow` with the old cached name
and then `UpsertWorkflow w` to the manager, in that order, followed by
a `ReactorWorkflowUpdate{Some w.name}` to every response channel
registered for the stream (and the periodic re-poll when the interval
is non-zero); the cache entry is replaced by `w`, and the response
channel lists are untouched. -/
theorem c6_executor_some_different (s : ReactorState) (stream_name : String)
    (w : WorkflowDefinition) (cache : CachedWorkflow)
    (hc : lookupA s.cached_workflows_for_stream_name stream_name = some cache)
    (hdiff : cache.definition.name ≠ w.name)
    (hmgr : s.workflow_manager = true) :
    (handle_executor_response s stream_name (some w)).2
        = ReactorEffect.toManager
              { request_id := requestIdFor s.name stream_name
                operation := .stopWorkflow cache.definition.name }
          :: ReactorEffect.toManager
              { request_id := requestIdFor s.name stream_name
                operation := .upsertWorkflow w }
          :: (((lookupA s.stream_response_channels stream_name).getD []).map
                (fun c => ReactorEffect.toResponseChannel c (some w.name))
              ++ (if s.update_interval ≠ 0 then [ReactorEffect.scheduleUpdate stream_name]
                  else []))
      ∧ lookupA (handle_executor_response s stream_name (some w)).1.cached_workflows_for_stream_name
          stream_name = some { definition := w }
      ∧ (handle_executor_response s stream_name (some w)).1.stream_response_channels
          = s.stream_response_channels := by
  simp [handle_executor_response, hc, hdiff, hmgr, lookupA_insertA_self]

def c6OldDef : WorkflowDefinition := { name := "old", steps := [] }

def c6NewDef : WorkflowDefinition := { name := "new", steps := [] }

def c6Reactor : ReactorState :=
  { name := "r"
    workflow_manager := true
    cached_workflows_for_stream_name := [("live", { definition := c6OldDef })]
    update_interval := 0
    stream_response_channels := [("live", [1, 2])] }

/-- Witness for C6 at a concrete reactor state. -/
theorem c6_witness :
    (handle_executor_response c6Reactor "live" (some c6NewDef)).2
        = [ReactorEffect.toManager
             { request_id := "reactor_r_stream_live", operation := .stopWorkflow "old" },
           ReactorEffect.toManager
             { request_id := "reactor_r_stream_live", operation := .upsertWorkflow c6NewDef },
           ReactorEffect.toResponseChannel 1 (some "new"),
           ReactorEffect.toResponseChannel 2 (some "new")] := by
  have h := c6_executor_some_different c6Reactor "live" c6NewDef { definition := c6OldDef }
    rfl (by decide) rfl
  simpa [c6Reactor, c6NewDef, c6OldDef, requestIdFor, lookupA] using h.1

/-! ## Definition application lemmas (claims C3, C8) -/

/-- `noConstructionFailure factory table defs` mirrors the step loop of
`apply_new_definition` on the step table alone and reports whether
every construction the loop would attempt succeeds. -/
def noConstructionFailure (factory : StepFactory σ) :
    List (Nat × WorkflowStep σ) → List WorkflowStepDefinition → Bool
  | _, [] => true
  | table, d :: rest =>
      if containsA table d.get_id then noConstructionFailure factory table rest
      else
        match factory d with
        | none => false
        | some (step, _) =>
            noConstructionFailure factory (insertA table d.get_id step) rest

/-- `applySteps` never touches the active list, the media caches, the
active streams or the execution buffers. -/
theorem applySteps_frame (factory : StepFactory σ) :
    ∀ (defs : List WorkflowStepDefinition) (s : RunnerState σ),
      (applySteps factory s defs).active_steps = s.active_steps
        ∧ (applySteps factory s defs).cached_step_media = s.cached_step_media
        ∧ (applySteps factory s defs).active_streams = s.active_streams
        ∧ (applySteps factory s defs).step_inputs = s.step_inputs
        ∧ (applySteps factory s defs).step_outputs = s.step_outputs := by
  intro defs
  induction defs with
  | nil => intro s; exact ⟨rfl, rfl, rfl, rfl, rfl⟩
  | cons d rest ih =>
      intro s
      simp only [applySteps]
      by_cases hc : containsA s.steps_by_definition_id d.get_id
      · simpa [hc] using ih _
      · cases hf : factory d with
        | none => simp [hc, hf]
        | some sf => simpa [hc, hf] using ih _

/-- When every construction succeeds, the step loop appends exactly the
definition's ids to the pending list. -/
theorem applySteps_pending_of_ok (factory : StepFactory σ) :
    ∀ (defs : List WorkflowStepDefinition) (s : RunnerState σ),
      noConstructionFailure factory s.steps_by_definition_id defs = true →
      (applySteps factory s defs).pending_steps
        = s.pending_steps ++ defs.map (fun d => d.get_id) := by
  intro defs
  induction defs with
  | nil => intro s _; simp [applySteps]
  | cons d rest ih =>
      intro s hok
      simp only [applySteps]
      by_cases hc : containsA s.steps_by_definition_id d.get_id
      · simp only [noConstructionFailure, hc, if_true] at hok
        have := ih { s with pending_steps := s.pending_steps ++ [d.get_id] } (by simpa using hok)
        simpa [hc] using this
      · simp only [noConstructionFailure, hc, if_false, Bool.false_eq_true] at hok
        cases hf : factory d with
        | none => rw [hf] at hok; simp at hok
        | some sf =>
            rw [hf] at hok
            have := ih
              { s with
                pending_steps := s.pending_steps ++ [d.get_id]
                futures := s.futures ++ sf.2.map (fun f => (d.get_id, f))
                steps_by_definition_id := insertA s.steps_by_definition_id d.get_id sf.1 }
              (by simpa using hok)
            simpa [hc, hf] using this

/-- When every construction in the prefix succeeds, the step loop over
an appended list factors through the prefix. -/
theorem applySteps_append_of_ok (factory : StepFactory σ) :
    ∀ (pre rest : List WorkflowStepDefinition) (s : RunnerState σ),
      noConstructionFailure factory s.steps_by_definition_id pre = true →
      applySteps factory s (pre ++ rest)
        = applySteps factory (applySteps factory s pre) rest := by
  intro pre
  induction pre with
  | nil => intro rest s _; simp [applySteps]
  | cons d pre' ih =>
      intro rest s hok
      simp only [List.cons_append, applySteps]
      by_cases hc : containsA s.steps_by_definition_id d.get_id
      · simp only [noConstructionFailure, hc, if_true] at hok
        simpa [hc] using ih rest _ (by simpa using hok)
      · simp only [noConstructionFailure, hc, if_false, Bool.false_eq_true] at hok
        cases hf : factory d with
        | none => rw [hf] at hok; simp at hok
        | some sf =>
            rw [hf] at hok
            simpa [hc, hf] using ih rest _ (by simpa using hok)

/-! ## The passes never touch the id lists -/

theorem execute_step_lists {σ : Type} (exec : StepExec σ) (s : RunnerState σ) (tid : Nat) :
    (execute_step exec s tid).active_steps = s.active_steps
      ∧ (execute_step exec s tid).pending_steps = s.pending_steps := by
  cases h : lookupA s.steps_by_definition_id tid <;>
    simp [execute_step, h, update_stream_details, update_media_cache_from_outputs]

theorem foldl_execute_step_lists {σ : Type} (exec : StepExec σ) (ids : List Nat) :
    ∀ t : RunnerState σ,
      ((ids.foldl (fun s id => execute_step exec s id) t).active_steps = t.active_steps
        ∧ (ids.foldl (fun s id => execute_step exec s id) t).pending_steps = t.pending_steps) := by
  induction ids with
  | nil => intro t; exact ⟨rfl, rfl⟩
  | cons id rest ih =>
      intro t
      simp only [List.foldl_cons]
      obtain ⟨h1, h2⟩ := ih (execute_step exec t id)
      obtain ⟨g1, g2⟩ := execute_step_lists exec t id
      exact ⟨h1.trans g1, h2.trans g2⟩

theorem executeStepsCore_lists {σ : Type} (exec : StepExec σ) (s : RunnerState σ)
    (i : Nat) (fr : Option Nat) (p : Bool) :
    (executeStepsCore exec s i fr p).active_steps = s.active_steps
      ∧ (executeStepsCore exec s i fr p).pending_steps = s.pending_steps := by
  unfold executeStepsCore
  cases p <;> cases fr <;> dsimp only <;> split <;>
    first
      | exact foldl_execute_step_lists exec _ _
      | exact execute_step_lists exec _ _

theorem driveStreamDisconnected_lists {σ : Type} (exec : StepExec σ) (key : StreamId)
    (targets : List Nat) :
    ∀ s : RunnerState σ,
      (driveStreamDisconnected exec s key targets).active_steps = s.active_steps
        ∧ (driveStreamDisconnected exec s key targets).pending_steps = s.pending_steps := by
  induction targets with
  | nil => intro s; exact ⟨rfl, rfl⟩
  | cons tid rest ih =>
      intro s
      simp only [driveStreamDisconnected, List.foldl_cons]
      obtain ⟨h1, h2⟩ := ih (execute_step exec
        { s with
          step_outputs := emptyOutputs
          step_inputs :=
            { media := [{ stream_id := key, content := .streamDisconnected }]
              notifications := [] } } tid)
      simp only [driveStreamDisconnected] at h1 h2
      obtain ⟨g1, g2⟩ := execute_step_lists exec
        { s with
          step_outputs := emptyOutputs
          step_inputs :=
            { media := [{ stream_id := key, content := .streamDisconnected }]
              notifications := [] } } tid
      exact ⟨h1.trans g1, h2.trans g2⟩

theorem removeStepCleanup_lists {σ : Type} (exec : StepExec σ) (index step_id : Nat)
    (s : RunnerState σ) :
    (removeStepCleanup exec s index step_id).active_steps = s.active_steps
      ∧ (removeStepCleanup exec s index step_id).pending_steps = s.pending_steps := by
  unfold removeStepCleanup
  dsimp only
  split
  · exact ⟨rfl, rfl⟩
  · refine foldl_preserve (P := fun t : RunnerState σ =>
      t.active_steps = s.active_steps ∧ t.pending_steps = s.pending_steps) ?_ _ ⟨rfl, rfl⟩
    intro t key _ hP
    simp only [cleanupKeyBody]
    split
    · exact hP
    · split
      · obtain ⟨h1, h2⟩ := driveStreamDisconnected_lists exec key _ t
        exact ⟨h1.trans hP.1, h2.trans hP.2⟩
      · exact hP

theorem removalPass_lists {σ : Type} (exec : StepExec σ) (s : RunnerState σ) :
    (removalPass exec s).active_steps = s.active_steps
      ∧ (removalPass exec s).pending_steps = s.pending_steps := by
  unfold removalPass
  refine foldl_preserve (P := fun t : RunnerState σ =>
    t.active_steps = s.active_steps ∧ t.pending_steps = s.pending_steps) ?_ _ ⟨rfl, rfl⟩
  intro t index _ hP
  simp only [removalBody]
  split
  · exact hP
  · obtain ⟨h1, h2⟩ := removeStepCleanup_lists exec index (t.active_steps.getD index 0) t
    exact ⟨h1.trans hP.1, h2.trans hP.2⟩

theorem replayPass_lists {σ : Type} (exec : StepExec σ) (s : RunnerState σ) :
    (replayPass exec s).active_steps = s.active_steps
      ∧ (replayPass exec s).pending_steps = s.pending_steps := by
  unfold replayPass
  refine foldl_preserve (P := fun t : RunnerState σ =>
    t.active_steps = s.active_steps ∧ t.pending_steps = s.pending_steps) ?_ _ ⟨rfl, rfl⟩
  intro t index _ hP
  simp only [replayBody]
  split
  · exact hP
  · split
    · exact hP
    · obtain ⟨h1, h2⟩ := executeStepsCore_lists exec
        { t with step_inputs := { media := _, notifications := [] } }
        (t.pending_steps.getD index 0) none true
      exact ⟨h1.trans hP.1, h2.trans hP.2⟩

/-! ## Claim C3: definition application and swap gating -/

/-- A do-nothing step behaviour over trivial step state. -/
def execId : StepExec Unit := fun step _ => (step, emptyOutputs)

/-- A factory that always fails (never consulted in the C3 scenario:
every id of the applied definition is already known). -/
def factoryNone : StepFactory Unit := fun _ => none

/-- A runner with one active step, id 5, already `Active`. -/
def c3State : RunnerState Unit :=
  { initialActorState Unit with
      steps_by_definition_id := [(5, { defId := 5, status := .active, st := () })]
      active_steps := [5] }

def c3Def : WorkflowDefinition := { name := "w", steps := [{ id := 5, step_type := "t" }] }

/-- **C3, counterexample.** Applying a definition whose single step is
already active leaves the pending list non-empty after
`apply_new_definition` returns, even though every pending step reports
`Active` (`pendingScan = some false`) and a swap attempt at that point
would have proceeded (clearing the pending list): no swap attempt
happens at the end of applying a definition. -/
theorem c3_counterexample :
    (apply_new_definition factoryNone c3State c3Def).pending_steps = [5]
      ∧ pendingScan (apply_new_definition factoryNone c3State c3Def) = some false
      ∧ (check_if_all_pending_steps_are_active execId
          (apply_new_definition factoryNone c3State c3Def)).pending_steps = []
      ∧ (apply_new_definition factoryNone c3State c3Def).pending_steps ≠ [] := by
  refine ⟨by decide, by decide, by decide, by decide⟩

/-- **C3, amended.** On receipt of `UpdateDefinition(def)` the runner
first clears the pending list, then appends each step's id to pending
in definition order (asking the factory to construct steps whose id is
unknown); it never swaps immediately — `apply_new_definition` leaves
the active list, the caches and the active streams untouched and
performs no swap attempt.  A swap attempt occurs (only) when a step
future resolves, and the swap proceeds exactly when every pending step
reports `Active` and the pending list is non-empty: a scan aborted by a
pending id missing from the step table or by a step in `Error` status
(`pendingScan = none`, the stuck state after a construction failure)
changes nothing, a scan finding a still-`Created` step changes
nothing, a completed all-`Active` scan over an empty pending list
changes nothing, and a scan finding all `Active` with a non-empty
pending list commits the pending list as the new active list and
clears it. -/
theorem c3_amended {σ : Type} (factory : StepFactory σ) (exec : StepExec σ)
    (s : RunnerState σ) (d : WorkflowDefinition)
    (hok : noConstructionFailure factory s.steps_by_definition_id d.steps = true) :
    (apply_new_definition factory s d).pending_steps = d.steps.map (fun st => st.get_id)
      ∧ (apply_new_definition factory s d).active_steps = s.active_steps
      ∧ (apply_new_definition factory s d).cached_step_media = s.cached_step_media
      ∧ (apply_new_definition factory s d).active_streams = s.active_streams
      ∧ (∀ (t : RunnerState σ) (id result : Nat),
          handleStepFutureResolved exec t id result
            = check_if_all_pending_steps_are_active exec
                (executeStepsCore exec t id (some result) false))
      ∧ (∀ t : RunnerState σ, pendingScan t = none →
          check_if_all_pending_steps_are_active exec t = t)
      ∧ (∀ t : RunnerState σ, pendingScan t = some true →
          check_if_all_pending_steps_are_active exec t = t)
      ∧ (∀ t : RunnerState σ, pendingScan t = some false → t.pending_steps = [] →
          check_if_all_pending_steps_are_active exec t = t)
      ∧ (∀ t : RunnerState σ, pendingScan t = some false → t.pending_steps ≠ [] →
          (check_if_all_pending_steps_are_active exec t).active_steps = t.pending_steps
            ∧ (check_if_all_pending_steps_are_active exec t).pending_steps = []) := by
  refine ⟨?_, (applySteps_frame factory d.steps _).1, (applySteps_frame factory d.steps _).2.1,
    (applySteps_frame factory d.steps _).2.2.1, ?_, ?_, ?_, ?_, ?_⟩
  · have := applySteps_pending_of_ok factory d.steps { s with pending_steps := [] }
      (by simpa using hok)
    simpa [apply_new_definition] using this
  · intro t id result
    rfl
  · intro t hscan
    simp [check_if_all_pending_steps_are_active, hscan]
  · intro t hscan
    simp [check_if_all_pending_steps_are_active, hscan]
  · intro t hscan hemp
    simp [check_if_all_pending_steps_are_active, hscan, hemp]
  · intro t hscan hne
    have hlen : 0 < t.pending_steps.length := List.length_pos.mpr hne
    simp only [check_if_all_pending_steps_are_active, hscan]
    rw [if_pos ⟨hlen, trivial⟩]
    have h1 := (replayPass_lists exec (removalPass exec t)).2
    have h2 := (removalPass_lists exec t).2
    exact ⟨h1.trans h2, rfl⟩

/-- Witness for C3's amended theorem: a fresh runner receives a
two-step definition, both steps unknown and successfully constructed. -/
def c3wFactory : StepFactory Unit := fun d =>
  some ({ defId := d.get_id, status := .created, st := () }, [])

theorem c3_amended_witness :
    (apply_new_definition c3wFactory (initialActorState Unit)
        { name := "w", steps := [{ id := 1, step_type := "a" }, { id := 2, step_type := "b" }] }).pending_steps
      = [1, 2] := by
  have h := c3_amended c3wFactory execId (initialActorState Unit)
    { name := "w", steps := [{ id := 1, step_type := "a" }, { id := 2, step_type := "b" }] }
    (by decide)
  simpa [WorkflowStepDefinition.get_id] using h.1

/-! ## Claim C8: a construction failure mid-apply -/

/-- **C8.** When step construction fails during `apply_new_definition`
— the factory (or the step generator) returns an error for a step whose
id is unknown, after a successfully processed prefix `pre` — the
function only logs and returns: the resulting state is exactly the
prefix state with the failed step's id appended to pending, so the
pending list retains every id appended so far including the failed
step's, no step after the failing one is constructed or recorded
anywhere, and the active list, the caches and the streams are
unchanged, with no error state recorded on the runner. -/
theorem c8_construction_failure {σ : Type} (factory : StepFactory σ) (s : RunnerState σ)
    (nm : String) (pre post : List WorkflowStepDefinition) (dbad : WorkflowStepDefinition)
    (hok : noConstructionFailure factory s.steps_by_definition_id pre = true)
    (hunknown : containsA (applySteps factory { s with pending_steps := [] } pre).steps_by_definition_id
        dbad.get_id = false)
    (hfail : factory dbad = none) :
    apply_new_definition factory s { name := nm, steps := pre ++ dbad :: post }
        = { applySteps factory { s with pending_steps := [] } pre with
              pending_steps :=
                (applySteps factory { s with pending_steps := [] } pre).pending_steps
                  ++ [dbad.get_id] }
      ∧ (apply_new_definition factory s
            { name := nm, steps := pre ++ dbad :: post }).pending_steps
          = pre.map (fun st => st.get_id) ++ [dbad.get_id]
      ∧ (apply_new_definition factory s
            { name := nm, steps := pre ++ dbad :: post }).active_steps = s.active_steps
      ∧ (apply_new_definition factory s
            { name := nm, steps := pre ++ dbad :: post }).cached_step_media = s.cached_step_media
      ∧ (apply_new_definition factory s
            { name := nm, steps := pre ++ dbad :: post }).active_streams = s.active_streams := by
  have hmain : apply_new_definition factory s { name := nm, steps := pre ++ dbad :: post }
      = { applySteps factory { s with pending_steps := [] } pre with
            pending_steps :=
              (applySteps factory { s with pending_steps := [] } pre).pending_steps
                ++ [dbad.get_id] } := by
    unfold apply_new_definition
    dsimp only
    rw [applySteps_append_of_ok factory pre (dbad :: post) _ (by simpa using hok)]
    simp only [applySteps, hunknown, Bool.false_eq_true, if_false, hfail]
  have hpend := applySteps_pending_of_ok factory pre { s with pending_steps := [] }
    (by simpa using hok)
  have hframe := applySteps_frame factory pre { s with pending_steps := [] }
  refine ⟨hmain, ?_, ?_, ?_, ?_⟩
  · rw [hmain]; simpa using hpend
  · rw [hmain]; simpa using hframe.1
  · rw [hmain]; simpa using hframe.2.1
  · rw [hmain]; simpa using hframe.2.2.1

/-- Witness for C8: the factory builds step 1 but fails on step 2;
step 3 is never reached. -/
def c8Factory : StepFactory Unit := fun d =>
  if d.get_id = 1 then some ({ defId := 1, status := .created, st := () }, [11]) else none

theorem c8_witness :
    (apply_new_definition c8Factory (initialActorState Unit)
        { name := "w"
          steps := [{ id := 1, step_type := "a" }] ++ { id := 2, step_type := "b" }
            :: [{ id := 3, step_type := "c" }] }).pending_steps = [1, 2] := by
  have h := c8_construction_failure c8Factory (initialActorState Unit) "w"
    [{ id := 1, step_type := "a" }] [{ id := 3, step_type := "c" }]
    { id := 2, step_type := "b" } (by decide) (by decide) (by decide)
  simpa [WorkflowStepDefinition.get_id] using h.2.1

/-! ## Claim C4: the stream-origin invariant -/

/-- A behaviour that announces a new incoming stream `"z"` whenever it
executes, as `rtmp_receive` does when a publisher-connected future
resolves. -/
def execNIS : StepExec Unit := fun step _ =>
  (step, { media := [{ stream_id := "z", content := .newIncomingStream "abc" }], futures := [] })

def c4Factory : StepFactory Unit := fun d =>
  if d.get_id = 7 then some ({ defId := 7, status := .created, st := () }, [0]) else none

/-- The runner after its initial definition: one pending step (id 7,
still `Created`), nothing active yet. -/
def c4S1 : RunnerState Unit :=
  apply_new_definition c4Factory (initialActorState Unit)
    { name := "w", steps := [{ id := 7, step_type := "rtmp_receive" }] }

/-- The runner after step 7's registered future resolves and its
execution (standalone: 7 is pending, not active) announces stream
`"z"`. -/
def c4S2 : RunnerState Unit := handleStepFutureResolved execNIS c4S1 7 0

/-- **C4, counterexample.** A reachable state (initial definition
applied, then one step future resolved) in which stream `"z"` sits in
the active-streams map with `originating_step_id = 7` while the active
list is empty: the standalone execute path registers streams whose
originating step is not in the active list, refuting the claimed
invariant. -/
theorem c4_counterexample :
    lookupA c4S2.active_streams "z" = some { originating_step_id := 7 }
      ∧ c4S2.active_steps = []
      ∧ ¬ (7 ∈ c4S2.active_steps) := by
  refine ⟨by decide, by decide, by decide⟩

/-! Supporting association-list lemmas for the invariant proofs. -/

theorem lookupA_insertA_some [DecidableEq κ] {l : List (κ × ν)} {k k' : κ} {v w : ν}
    (h : lookupA (insertA l k v) k' = some w) :
    (k' = k ∧ w = v) ∨ (k' ≠ k ∧ lookupA l k' = some w) := by
  by_cases hk : k' = k
  · subst hk
    rw [lookupA_insertA_self] at h
    exact Or.inl ⟨rfl, (Option.some_inj.mp h).symm⟩
  · rw [lookupA_insertA_ne _ _ _ _ hk] at h
    exact Or.inr ⟨hk, h⟩

theorem lookupA_eraseA_some [DecidableEq κ] {l : List (κ × ν)} {k k' : κ} {v : ν}
    (h : lookupA (eraseA l k) k' = some v) : k' ≠ k ∧ lookupA l k' = some v := by
  by_cases hk : k' = k
  · subst hk
    rw [lookupA_eraseA_self] at h
    exact absurd h (by simp)
  · rw [lookupA_eraseA_ne _ _ _ hk] at h
    exact ⟨hk, h⟩

theorem containsA_insertA_of [DecidableEq κ] {l : List (κ × ν)} {k' : κ}
    (k : κ) (v : ν) (h : containsA l k' = true) : containsA (insertA l k v) k' = true := by
  by_cases hk : k' = k
  · subst hk; exact containsA_insertA_self _ _ _
  · rwa [containsA_insertA_ne _ _ _ _ hk]

theorem containsA_eraseA_ne [DecidableEq κ] {l : List (κ × ν)} {k k' : κ}
    (hk : k' ≠ k) : containsA (eraseA l k) k' = containsA l k' := by
  simp [containsA, lookupA_eraseA_ne _ _ _ hk]

/-- `execute_step` on a step found in the table, written out: run the
behaviour on the current inputs; update the table entry; register the
produced futures; fold the produced media through the stream-details
and media-cache updates; move the produced media into the inputs. -/
theorem execute_step_eq {σ : Type} (exec : StepExec σ) (s : RunnerState σ) (tid : Nat)
    (step : WorkflowStep σ) (h : lookupA s.steps_by_definition_id tid = some step) :
    execute_step exec s tid =
      { s with
        steps_by_definition_id :=
          insertA s.steps_by_definition_id tid (exec step s.step_inputs).1
        futures := s.futures ++ (exec step s.step_inputs).2.futures.map
          (fun f => ((exec step s.step_inputs).1.defId, f))
        active_streams :=
          updateStreamDetailsList tid s.active_streams (exec step s.step_inputs).2.media
        cached_step_media :=
          insertA s.cached_step_media tid
            (updateMediaCacheList ((lookupA s.cached_step_media tid).getD [])
              (exec step s.step_inputs).2.media)
        step_inputs := { media := (exec step s.step_inputs).2.media, notifications := [] }
        step_outputs := emptyOutputs } := by
  simp [execute_step, h, update_stream_details, update_media_cache_from_outputs]

/-- The single-notification step of `update_stream_details`'s loop. -/
def streamDetailsStep (current : Nat) (streams : List (StreamId × StreamDetails))
    (m : MediaNotification) : List (StreamId × StreamDetails) :=
  match m.content with
  | .video _ _ _ _ _ => streams
  | .audio _ _ _ _ => streams
  | .metadata _ => streams
  | .newIncomingStream _ =>
      if containsA streams m.stream_id then streams
      else insertA streams m.stream_id { originating_step_id := current }
  | .streamDisconnected =>
      match lookupA streams m.stream_id with
      | some details =>
          if details.originating_step_id = current then eraseA streams m.stream_id
          else streams
      | none => streams

/-- The single-notification step of `update_media_cache_from_outputs`'s loop. -/
def mediaCacheStep (c : List (StreamId × List MediaNotification)) (m : MediaNotification) :
    List (StreamId × List MediaNotification) :=
  match cacheOperationFor m.content with
  | .ignore => c
  | .remove => eraseA c m.stream_id
  | .add => insertA c m.stream_id ((lookupA c m.stream_id).getD [] ++ [m])

theorem updateStreamDetailsList_cons (tid : Nat) (S : List (StreamId × StreamDetails))
    (x : MediaNotification) (rest : List MediaNotification) :
    updateStreamDetailsList tid S (x :: rest)
      = updateStreamDetailsList tid (streamDetailsStep tid S x) rest := by
  simp only [updateStreamDetailsList, List.foldl_cons]
  rfl

theorem updateMediaCacheList_cons (m : List (StreamId × List MediaNotification))
    (x : MediaNotification) (rest : List MediaNotification) :
    updateMediaCacheList m (x :: rest) = updateMediaCacheList (mediaCacheStep m x) rest := by
  simp only [updateMediaCacheList, List.foldl_cons]
  rfl

/-- The amended stream-origin invariant: every stream in the
active-streams map originates at a step that is still present in the
step table, and the stream is a key of that step's media cache. -/
def StreamsCovered {σ : Type} (s : RunnerState σ) : Prop :=
  ∀ W st, lookupA s.active_streams W = some st →
    (∃ stp, lookupA s.steps_by_definition_id st.originating_step_id = some stp)
      ∧ ∃ m, lookupA s.cached_step_media st.originating_step_id = some m
          ∧ containsA m W = true

/-- The invariant with an excuse set `bad`, used while a removal-pass
cleanup is mid-flight: entries in `bad` are the streams of the step
being removed that have not been cleaned up yet. -/
def StreamsCoveredExcept {σ : Type} (s : RunnerState σ)
    (bad : StreamId → StreamDetails → Prop) : Prop :=
  ∀ W st, lookupA s.active_streams W = some st →
    bad W st ∨
      ((∃ stp, lookupA s.steps_by_definition_id st.originating_step_id = some stp)
        ∧ ∃ m, lookupA s.cached_step_media st.originating_step_id = some m
            ∧ containsA m W = true)

theorem streamsCoveredExcept_false {σ : Type} (s : RunnerState σ) :
    StreamsCoveredExcept s (fun _ _ => False) ↔ StreamsCovered s := by
  constructor
  · intro h W st hW
    rcases h W st hW with h' | h'
    · exact h'.elim
    · exact h'
  · intro h W st hW
    exact Or.inr (h W st hW)

/-- The two folds of `execute_step` over the same output batch, related:
streams that end up registered to the executing step are keys of its
final cache, and entries registered to other steps were already there
before the batch. -/
theorem pairedFoldCover (tid : Nat) (l : List MediaNotification) :
    ∀ (S : List (StreamId × StreamDetails)) (m : List (StreamId × List MediaNotification)),
      (∀ W st, lookupA S W = some st → st.originating_step_id = tid →
        containsA m W = true) →
      ∀ W st, lookupA (updateStreamDetailsList tid S l) W = some st →
        (st.originating_step_id = tid → containsA (updateMediaCacheList m l) W = true)
          ∧ (st.originating_step_id ≠ tid → lookupA S W = some st) := by
  induction l with
  | nil =>
      intro S m H W st hW
      exact ⟨fun htid => H W st hW htid, fun _ => hW⟩
  | cons x rest ih =>
      intro S m H W st hW
      rw [updateStreamDetailsList_cons] at hW
      rw [updateMediaCacheList_cons]
      rcases x with ⟨Z, xc⟩
      cases xc with
      | metadata dd =>
          simp only [streamDetailsStep] at hW
          simp only [mediaCacheStep, cacheOperationFor]
          exact ih S m H W st hW
      | video cd kf ish ts bs =>
          simp only [streamDetailsStep] at hW
          simp only [mediaCacheStep, cacheOperationFor]
          cases ish with
          | false => exact ih S m H W st hW
          | true =>
              refine ih S _ ?_ W st hW
              intro W' st' h' htid
              exact containsA_insertA_of _ _ (H W' st' h' htid)
      | audio cd ish ts bs =>
          simp only [streamDetailsStep] at hW
          simp only [mediaCacheStep, cacheOperationFor]
          cases ish with
          | false => exact ih S m H W st hW
          | true =>
              refine ih S _ ?_ W st hW
              intro W' st' h' htid
              exact containsA_insertA_of _ _ (H W' st' h' htid)
      | newIncomingStream nm =>
          simp only [streamDetailsStep] at hW
          simp only [mediaCacheStep, cacheOperationFor]
          by_cases hcon : containsA S Z = true
          · rw [if_pos hcon] at hW
            have H1 : ∀ W' st', lookupA S W' = some st' → st'.originating_step_id = tid →
                containsA (insertA m Z ((lookupA m Z).getD []
                  ++ [{ stream_id := Z, content := .newIncomingStream nm }])) W' = true := by
              intro W' st' h' htid
              exact containsA_insertA_of _ _ (H W' st' h' htid)
            exact ih S _ H1 W st hW
          · rw [if_neg hcon] at hW
            have H1 : ∀ W' st',
                lookupA (insertA S Z { originating_step_id := tid }) W' = some st' →
                st'.originating_step_id = tid →
                containsA (insertA m Z ((lookupA m Z).getD []
                  ++ [{ stream_id := Z, content := .newIncomingStream nm }])) W' = true := by
              intro W' st' h' htid
              rcases lookupA_insertA_some h' with ⟨hWZ, _⟩ | ⟨_, hS⟩
              · subst hWZ
                exact containsA_insertA_self _ _ _
              · exact containsA_insertA_of _ _ (H W' st' hS htid)
            obtain ⟨c1, c2⟩ := ih _ _ H1 W st hW
            refine ⟨c1, fun hne => ?_⟩
            rcases lookupA_insertA_some (c2 hne) with ⟨_, hst⟩ | ⟨_, hS⟩
            · exact absurd (by rw [hst]) hne
            · exact hS
      | streamDisconnected =>
          simp only [streamDetailsStep] at hW
          simp only [mediaCacheStep, cacheOperationFor]
          cases hd : lookupA S Z with
          | none =>
              rw [hd] at hW
              dsimp only at hW
              have H1 : ∀ W' st', lookupA S W' = some st' → st'.originating_step_id = tid →
                  containsA (eraseA m Z) W' = true := by
                intro W' st' h' htid
                have hWZ : W' ≠ Z := by
                  intro he
                  rw [he, hd] at h'
                  exact absurd h' (by simp)
                rw [containsA_eraseA_ne hWZ]
                exact H W' st' h' htid
              exact ih S _ H1 W st hW
          | some d =>
              rw [hd] at hW
              dsimp only at hW
              by_cases hdt : d.originating_step_id = tid
              · rw [if_pos hdt] at hW
                have H1 : ∀ W' st', lookupA (eraseA S Z) W' = some st' →
                    st'.originating_step_id = tid → containsA (eraseA m Z) W' = true := by
                  intro W' st' h' htid
                  obtain ⟨hWZ, hS⟩ := lookupA_eraseA_some h'
                  rw [containsA_eraseA_ne hWZ]
                  exact H W' st' hS htid
                obtain ⟨c1, c2⟩ := ih _ _ H1 W st hW
                refine ⟨c1, fun hne => ?_⟩
                exact (lookupA_eraseA_some (c2 hne)).2
              · rw [if_neg hdt] at hW
                have H1 : ∀ W' st', lookupA S W' = some st' → st'.originating_step_id = tid →
                    containsA (eraseA m Z) W' = true := by
                  intro W' st' h' htid
                  have hWZ : W' ≠ Z := by
                    intro he
                    rw [he, hd] at h'
                    have : st' = d := Option.some_inj.mp h'.symm
                    rw [← this] at hdt
                    exact hdt htid
                  rw [containsA_eraseA_ne hWZ]
                  exact H W' st' h' htid
                exact ih S _ H1 W st hW

/-- `execute_step` preserves the covered invariant, excused entries
included, provided every excused entry's originating step is absent
from the table (so the executing step cannot be an excused origin). -/
theorem execute_step_cover {σ : Type} (exec : StepExec σ) (s : RunnerState σ) (tid : Nat)
    (bad : StreamId → StreamDetails → Prop)
    (hbad : ∀ W st, bad W st →
      lookupA s.steps_by_definition_id st.originating_step_id = none)
    (hcov : StreamsCoveredExcept s bad) :
    StreamsCoveredExcept (execute_step exec s tid) bad := by
  cases htid : lookupA s.steps_by_definition_id tid with
  | none => simpa [execute_step, htid] using hcov
  | some step =>
      rw [execute_step_eq exec s tid step htid]
      intro W st hW
      dsimp only at hW ⊢
      have H : ∀ W' st', lookupA s.active_streams W' = some st' →
          st'.originating_step_id = tid →
          containsA ((lookupA s.cached_step_media tid).getD []) W' = true := by
        intro W' st' h' htid'
        rcases hcov W' st' h' with hb | ⟨⟨stp, htab⟩, ⟨m0, hm0, hcon⟩⟩
        · have hnone := hbad W' st' hb
          rw [htid'] at hnone
          rw [hnone] at htid
          exact absurd htid (by simp)
        · rw [htid'] at hm0
          rw [hm0]
          simpa using hcon
      obtain ⟨c1, c2⟩ := pairedFoldCover tid (exec step s.step_inputs).2.media
        s.active_streams ((lookupA s.cached_step_media tid).getD []) H W st hW
      by_cases ho : st.originating_step_id = tid
      · right
        refine ⟨⟨(exec step s.step_inputs).1, ?_⟩, ⟨_, ?_, c1 ho⟩⟩
        · rw [ho, lookupA_insertA_self]
        · rw [ho, lookupA_insertA_self]
      · have hS := c2 ho
        rcases hcov W st hS with hb | ⟨⟨stp, htab⟩, ⟨m0, hm0, hcon⟩⟩
        · exact Or.inl hb
        · right
          refine ⟨⟨stp, ?_⟩, ⟨m0, ?_, hcon⟩⟩
          · rw [lookupA_insertA_ne _ _ _ _ ho]
            exact htab
          · rw [lookupA_insertA_ne _ _ _ _ ho]
            exact hm0

theorem execute_step_table_ne {σ : Type} (exec : StepExec σ) (s : RunnerState σ)
    (tid k : Nat) (hk : k ≠ tid) :
    lookupA (execute_step exec s tid).steps_by_definition_id k
      = lookupA s.steps_by_definition_id k := by
  cases htid : lookupA s.steps_by_definition_id tid with
  | none => simp [execute_step, htid]
  | some step =>
      rw [execute_step_eq exec s tid step htid]
      dsimp only
      exact lookupA_insertA_ne _ _ _ _ hk

theorem execute_step_table_none {σ : Type} (exec : StepExec σ) (s : RunnerState σ)
    (tid k : Nat) (h : lookupA s.steps_by_definition_id k = none) :
    lookupA (execute_step exec s tid).steps_by_definition_id k = none := by
  cases htid : lookupA s.steps_by_definition_id tid with
  | none => simpa [execute_step, htid] using h
  | some step =>
      have hk : k ≠ tid := by
        intro he
        rw [he, htid] at h
        exact absurd h (by simp)
      rw [execute_step_table_ne exec s tid k hk]
      exact h

theorem execute_step_cache_ne {σ : Type} (exec : StepExec σ) (s : RunnerState σ)
    (tid k : Nat) (hk : k ≠ tid) :
    lookupA (execute_step exec s tid).cached_step_media k
      = lookupA s.cached_step_media k := by
  cases htid : lookupA s.steps_by_definition_id tid with
  | none => simp [execute_step, htid]
  | some step =>
      rw [execute_step_eq exec s tid step htid]
      dsimp only
      exact lookupA_insertA_ne _ _ _ _ hk

theorem execute_step_cache_none {σ : Type} (exec : StepExec σ) (s : RunnerState σ)
    (tid k : Nat) (htab : lookupA s.steps_by_definition_id k = none)
    (h : lookupA s.cached_step_media k = none) :
    lookupA (execute_step exec s tid).cached_step_media k = none := by
  cases htid : lookupA s.steps_by_definition_id tid with
  | none => simpa [execute_step, htid] using h
  | some step =>
      have hk : k ≠ tid := by
        intro he
        rw [he, htid] at htab
        exact absurd htab (by simp)
      rw [execute_step_cache_ne exec s tid k hk]
      exact h

/-! Recorder-specific frame lemmas. -/

theorem execute_step_recorder_streams (s : RunnerState (List (List MediaNotification)))
    (tid : Nat) :
    (execute_step recorder s tid).active_streams = s.active_streams := by
  rw [execute_step_recorder]
  cases htid : lookupA s.steps_by_definition_id tid <;> rfl

theorem execute_step_recorder_cache (s : RunnerState (List (List MediaNotification)))
    (tid k : Nat) (v : List (StreamId × List MediaNotification))
    (h : lookupA s.cached_step_media k = some v) :
    lookupA (execute_step recorder s tid).cached_step_media k = some v := by
  rw [execute_step_recorder]
  cases htid : lookupA s.steps_by_definition_id tid with
  | none => exact h
  | some stp =>
      dsimp only
      by_cases hk : k = tid
      · subst hk
        rw [h]
        simpa using lookupA_insertA_self s.cached_step_media k v
      · rw [lookupA_insertA_ne _ _ _ _ hk]
        exact h

theorem execute_step_recorder_log_mem (s : RunnerState (List (List MediaNotification)))
    (tid k : Nat) (stp : WorkflowStep (List (List MediaNotification)))
    (b : List MediaNotification)
    (h : lookupA s.steps_by_definition_id k = some stp) (hb : b ∈ stp.st) :
    ∃ stp', lookupA (execute_step recorder s tid).steps_by_definition_id k = some stp'
      ∧ b ∈ stp'.st := by
  by_cases hk : k = tid
  · subst hk
    rw [execute_step_recorder, h]
    dsimp only
    refine ⟨_, lookupA_insertA_self _ _ _, ?_⟩
    exact List.mem_append_left _ hb
  · rw [execute_step_table_ne recorder s tid k hk]
    exact ⟨stp, h, hb⟩

theorem execute_step_covered {σ : Type} (exec : StepExec σ) (t : RunnerState σ) (tid : Nat)
    (h : StreamsCovered t) : StreamsCovered (execute_step exec t tid) :=
  (streamsCoveredExcept_false _).mp
    (execute_step_cover exec t tid (fun _ _ => False) (fun _ _ hb => hb.elim)
      ((streamsCoveredExcept_false _).mpr h))

/-- Driving a synthesized disconnect through a list of steps keeps the
removed step `r` out of the table and the cache, and preserves the
covered invariant with excuses whose origin is `r`. -/
theorem driveStreamDisconnected_cover {σ : Type} (exec : StepExec σ) (key : StreamId)
    (targets : List Nat) (r : Nat) (bad : StreamId → StreamDetails → Prop)
    (hbadr : ∀ W st, bad W st → st.originating_step_id = r) (t : RunnerState σ)
    (h1 : lookupA t.steps_by_definition_id r = none)
    (h2 : lookupA t.cached_step_media r = none)
    (h3 : StreamsCoveredExcept t bad) :
    lookupA (driveStreamDisconnected exec t key targets).steps_by_definition_id r = none
      ∧ lookupA (driveStreamDisconnected exec t key targets).cached_step_media r = none
      ∧ StreamsCoveredExcept (driveStreamDisconnected exec t key targets) bad := by
  unfold driveStreamDisconnected
  refine foldl_preserve (P := fun u : RunnerState σ =>
    lookupA u.steps_by_definition_id r = none
      ∧ lookupA u.cached_step_media r = none
      ∧ StreamsCoveredExcept u bad) ?_ _ ⟨h1, h2, h3⟩
  intro u tid _ hP
  obtain ⟨p1, p2, p3⟩ := hP
  simp only [driveBody]
  refine ⟨execute_step_table_none exec _ tid r p1,
    execute_step_cache_none exec _ tid r p1 p2,
    execute_step_cover exec _ tid bad ?_ p3⟩
  intro W st hb
  rw [hbadr W st hb]
  exact p1

/-- The removal-pass cleanup for one removed step's stream keys,
restoring the unexcused invariant once every key has been visited. -/
theorem cleanupKeys_cover {σ : Type} (exec : StepExec σ) (r : Nat) (targets : List Nat) :
    ∀ (keys : List StreamId) (t : RunnerState σ),
      lookupA t.steps_by_definition_id r = none →
      lookupA t.cached_step_media r = none →
      StreamsCoveredExcept t (fun W st => st.originating_step_id = r ∧ W ∈ keys) →
      StreamsCovered (keys.foldl (cleanupKeyBody exec r targets) t) := by
  intro keys
  induction keys with
  | nil =>
      intro t _ _ h3
      simp only [List.foldl_nil]
      intro W st hW
      rcases h3 W st hW with ⟨_, hmem⟩ | hgood
      · exact absurd hmem (List.not_mem_nil _)
      · exact hgood
  | cons Z rest ih =>
      intro t h1 h2 h3
      simp only [List.foldl_cons, cleanupKeyBody]
      cases hz : lookupA t.active_streams Z with
      | none =>
          refine ih t h1 h2 ?_
          intro W st hW
          rcases h3 W st hW with ⟨ho, hmem⟩ | hgood
          · rcases List.mem_cons.mp hmem with he | hm
            · rw [he, hz] at hW
              exact absurd hW (by simp)
            · exact Or.inl ⟨ho, hm⟩
          · exact Or.inr hgood
      | some stream =>
          dsimp only
          by_cases hor : stream.originating_step_id = r
          · rw [if_pos hor]
            obtain ⟨d1, d2, d3⟩ := driveStreamDisconnected_cover exec Z targets r _
              (fun _ _ hb => hb.1) t h1 h2 h3
            refine ih _ d1 d2 ?_
            intro W st hW
            dsimp only at hW
            obtain ⟨hWZ, hW'⟩ := lookupA_eraseA_some hW
            rcases d3 W st hW' with ⟨ho, hmem⟩ | hgood
            · exact Or.inl ⟨ho, (List.mem_cons.mp hmem).resolve_left hWZ⟩
            · exact Or.inr hgood
          · rw [if_neg hor]
            refine ih t h1 h2 ?_
            intro W st hW
            rcases h3 W st hW with ⟨ho, hmem⟩ | hgood
            · rcases List.mem_cons.mp hmem with he | hm
              · rw [he, hz] at hW
                have hst : stream = st := Option.some_inj.mp hW
                rw [← hst] at ho
                exact absurd ho hor
              · exact Or.inl ⟨ho, hm⟩
            · exact Or.inr hgood

/-- The covered invariant survives removing one active-but-not-pending
step: its table entry and media cache go away, but so does every
active stream originating from it. -/
theorem removeStepCleanup_covered {σ : Type} (exec : StepExec σ) (index r : Nat)
    (s : RunnerState σ) (hcov : StreamsCovered s) :
    StreamsCovered (removeStepCleanup exec s index r) := by
  unfold removeStepCleanup
  dsimp only
  cases hc : lookupA s.cached_step_media r with
  | none =>
      dsimp only
      intro W st hW
      dsimp only at hW ⊢
      obtain ⟨⟨stp, htab⟩, ⟨m0, hm0, hcon⟩⟩ := hcov W st hW
      have hor : st.originating_step_id ≠ r := by
        intro he
        rw [he, hc] at hm0
        exact absurd hm0 (by simp)
      exact ⟨⟨stp, by rw [lookupA_eraseA _ _ _, if_neg hor]; exact htab⟩, ⟨m0, hm0, hcon⟩⟩
  | some cr =>
      dsimp only
      refine cleanupKeys_cover exec r _ (keysA cr) _ ?_ ?_ ?_
      · exact lookupA_eraseA_self _ _
      · exact lookupA_eraseA_self _ _
      · intro W st hW
        dsimp only at hW
        obtain ⟨⟨stp, htab⟩, ⟨m0, hm0, hcon⟩⟩ := hcov W st hW
        by_cases ho : st.originating_step_id = r
        · refine Or.inl ⟨ho, ?_⟩
          rw [ho, hc] at hm0
          have : m0 = cr := Option.some_inj.mp hm0.symm
          rw [this] at hcon
          exact mem_keysA_of_containsA _ _ hcon
        · refine Or.inr ⟨⟨stp, ?_⟩, ⟨m0, ?_, hcon⟩⟩
          · rw [lookupA_eraseA_ne _ _ _ ho]
            exact htab
          · rw [lookupA_eraseA_ne _ _ _ ho]
            exact hm0

theorem removalPass_covered {σ : Type} (exec : StepExec σ) (s : RunnerState σ)
    (hcov : StreamsCovered s) : StreamsCovered (removalPass exec s) := by
  unfold removalPass
  refine foldl_preserve (P := StreamsCovered) ?_ _ hcov
  intro t index _ hP
  simp only [removalBody]
  split
  · exact hP
  · exact removeStepCleanup_covered exec index _ t hP

theorem executeStepsCore_covered {σ : Type} (exec : StepExec σ) (s : RunnerState σ)
    (i : Nat) (fr : Option Nat) (p : Bool) (hcov : StreamsCovered s) :
    StreamsCovered (executeStepsCore exec s i fr p) := by
  unfold executeStepsCore
  cases p <;> cases fr <;> dsimp only <;> split <;>
    first
      | exact foldl_preserve (fun t id _ hP => execute_step_covered exec t id hP) _ hcov
      | exact execute_step_covered exec _ _ hcov

theorem replayPass_covered {σ : Type} (exec : StepExec σ) (s : RunnerState σ)
    (hcov : StreamsCovered s) : StreamsCovered (replayPass exec s) := by
  unfold replayPass
  refine foldl_preserve (P := StreamsCovered) ?_ _ hcov
  intro t index _ hP
  simp only [replayBody]
  split
  · exact hP
  · split
    · exact hP
    · exact executeStepsCore_covered exec _ _ none true hP

theorem check_covered {σ : Type} (exec : StepExec σ) (s : RunnerState σ)
    (hcov : StreamsCovered s) :
    StreamsCovered (check_if_all_pending_steps_are_active exec s) := by
  unfold check_if_all_pending_steps_are_active
  split
  · exact hcov
  · split
    · exact replayPass_covered exec _ (removalPass_covered exec s hcov)
    · exact hcov

theorem exists_lookupA_insertA [DecidableEq κ] {l : List (κ × ν)} {k : κ} (k' : κ) (v : ν)
    (h : ∃ w, lookupA l k = some w) : ∃ w, lookupA (insertA l k' v) k = some w := by
  by_cases hk : k = k'
  · subst hk
    exact ⟨v, lookupA_insertA_self _ _ _⟩
  · rw [lookupA_insertA_ne _ _ _ _ hk]
    exact h

theorem applySteps_covered {σ : Type} (factory : StepFactory σ) :
    ∀ (defs : List WorkflowStepDefinition) (s : RunnerState σ),
      StreamsCovered s → StreamsCovered (applySteps factory s defs) := by
  intro defs
  induction defs with
  | nil => intro s h; exact h
  | cons d rest ih =>
      intro s h
      simp only [applySteps]
      by_cases hc : containsA s.steps_by_definition_id d.get_id
      · rw [if_pos hc]
        exact ih _ h
      · rw [if_neg hc]
        cases hf : factory d with
        | none => exact h
        | some sf =>
            refine ih _ ?_
            intro W st hW
            dsimp only at hW ⊢
            obtain ⟨⟨stp, htab⟩, hcache⟩ := h W st hW
            exact ⟨exists_lookupA_insertA _ _ ⟨stp, htab⟩, hcache⟩

/-- **C4, amended.** For every stream in the active-streams map, the
`originating_step_id` names a step still present in the *step table*
(and the stream is a key of that step's media cache) — not necessarily
in the active list, since the standalone execute path lets a pending or
orphaned step register a stream.  This invariant is preserved by every
operation of the runner: definition application and a step-future
resolution (which performs step execution — active-path or standalone —
stream-origin tracking, cache updates, and the swap). -/
theorem c4_amended {σ : Type} (factory : StepFactory σ) (exec : StepExec σ)
    (s : RunnerState σ) (d : WorkflowDefinition) (id result : Nat)
    (hcov : StreamsCovered s) :
    StreamsCovered (apply_new_definition factory s d)
      ∧ StreamsCovered (handleStepFutureResolved exec s id result) := by
  constructor
  · exact applySteps_covered factory d.steps _ hcov
  · have heq : handleStepFutureResolved exec s id result
        = check_if_all_pending_steps_are_active exec
            (executeStepsCore exec s id (some result) false) := rfl
    rw [heq]
    exact check_covered exec _ (executeStepsCore_covered exec s id (some result) false hcov)

/-- Witness for C4's amended invariant at the freshly created runner. -/
theorem c4_amended_witness :
    StreamsCovered (apply_new_definition factoryNone (initialActorState Unit)
      { name := "w", steps := [] }) :=
  (c4_amended factoryNone execId (initialActorState Unit) { name := "w", steps := [] } 0 0
    (fun W st hW => by simp [initialActorState, lookupA] at hW)).1

/-! ## Claim C1: cache replay into a newly inserted step -/

abbrev RecLog := List (List MediaNotification)

theorem contains_eq_false_of_not_mem (l : List Nat) (a : Nat) (h : a ∉ l) :
    l.contains a = false := by
  induction l with
  | nil => rfl
  | cons x xs ih =>
      have hx : a ≠ x := fun he => h (he ▸ List.mem_cons_self x xs)
      have hxs : a ∉ xs := fun hm => h (List.mem_cons_of_mem _ hm)
      simp [List.contains_cons, ih hxs, hx, hxs]

theorem contains_eq_true_of_mem (l : List Nat) (a : Nat) (h : a ∈ l) :
    l.contains a = true := by
  induction l with
  | nil => exact absurd h (List.not_mem_nil a)
  | cons x xs ih =>
      rcases List.mem_cons.mp h with he | hm
      · simp [List.contains_cons, he]
      · simp [List.contains_cons, ih hm, hm]

theorem findIdx?_eq_none_of_not_mem (l : List Nat) (a : Nat) (h : a ∉ l) :
    l.findIdx? (fun x => x == a) = none := by
  induction l with
  | nil => rfl
  | cons x xs ih =>
      have hx : (x == a) = false := by
        simp only [beq_eq_false_iff_ne]
        exact fun he => h (he ▸ List.mem_cons_self x xs)
      have hxs : a ∉ xs := fun hm => h (List.mem_cons_of_mem _ hm)
      simp [List.findIdx?_cons, hx, ih hxs]

theorem getD_mem_of_lt (l : List Nat) (n : Nat) (h : n < l.length) : l.getD n 0 ∈ l := by
  rw [List.getD_eq_getElem?_getD, List.getElem?_eq_getElem h]
  exact List.getElem_mem h

theorem getD_ne_of_nodup (l : List Nat) (hnd : l.Nodup) {j k : Nat} (hj : j < l.length)
    (hk : k < l.length) (hne : j ≠ k) : l.getD j 0 ≠ l.getD k 0 := by
  rw [List.getD_eq_getElem?_getD, List.getElem?_eq_getElem hj,
    List.getD_eq_getElem?_getD, List.getElem?_eq_getElem hk]
  simp only [Option.getD_some]
  intro he
  exact hne (List.Nodup.getElem_inj_iff hnd |>.mp he)

/-- The facts tracked through the swap for claim C1: the id lists are
unchanged, the watched step's table entry is `stepv`, and (optionally)
some step's cache entry is `pc.2`. -/
def trackInv (A Pd : List Nat) (sid : Nat) (stepv : WorkflowStep RecLog)
    (cacheOf : Option (Nat × List (StreamId × List MediaNotification)))
    (t : RunnerState RecLog) : Prop :=
  t.active_steps = A ∧ t.pending_steps = Pd
    ∧ lookupA t.steps_by_definition_id sid = some stepv
    ∧ ∀ pc, cacheOf = some pc → lookupA t.cached_step_media pc.1 = some pc.2

theorem execute_step_track {A Pd sid stepv cacheOf} (t : RunnerState RecLog) (tid : Nat)
    (hne : tid ≠ sid) (h : trackInv A Pd sid stepv cacheOf t) :
    trackInv A Pd sid stepv cacheOf (execute_step recorder t tid) := by
  obtain ⟨h1, h2, h3, h4⟩ := h
  obtain ⟨l1, l2⟩ := execute_step_lists recorder t tid
  refine ⟨l1.trans h1, l2.trans h2, ?_, ?_⟩
  · rw [execute_step_table_ne recorder t tid sid (fun he => hne he.symm)]
    exact h3
  · intro pc hpc
    exact execute_step_recorder_cache t tid pc.1 pc.2 (h4 pc hpc)

theorem drive_track {A Pd sid stepv cacheOf} (key : StreamId) (targets : List Nat)
    (hsub : ∀ x ∈ targets, x ∈ A) (hsid : sid ∉ A) (t : RunnerState RecLog)
    (h : trackInv A Pd sid stepv cacheOf t) :
    trackInv A Pd sid stepv cacheOf (driveStreamDisconnected recorder t key targets) := by
  unfold driveStreamDisconnected
  refine foldl_preserve (P := trackInv A Pd sid stepv cacheOf) ?_ _ h
  intro u tid hmem hP
  have htid : tid ≠ sid := fun he => hsid (he ▸ hsub tid hmem)
  simp only [driveBody]
  exact execute_step_track _ tid htid ⟨hP.1, hP.2.1, hP.2.2.1, hP.2.2.2⟩

theorem cleanup_track {A Pd sid stepv cacheOf} (index r : Nat)
    (hrs : r ≠ sid) (hrc : ∀ pc, cacheOf = some pc → r ≠ pc.1) (hsid : sid ∉ A)
    (t : RunnerState RecLog) (h : trackInv A Pd sid stepv cacheOf t) :
    trackInv A Pd sid stepv cacheOf (removeStepCleanup recorder t index r) := by
  obtain ⟨h1, h2, h3, h4⟩ := h
  have h3' : lookupA (eraseA t.steps_by_definition_id r) sid = some stepv := by
    rw [lookupA_eraseA_ne _ _ _ (Ne.symm hrs)]
    exact h3
  unfold removeStepCleanup
  dsimp only
  cases hc : lookupA t.cached_step_media r with
  | none => exact ⟨h1, h2, h3', h4⟩
  | some cr =>
      dsimp only
      refine foldl_preserve (P := trackInv A Pd sid stepv cacheOf) ?_ _
        ⟨h1, h2, h3', ?_⟩
      · intro u key _ hP
        unfold cleanupKeyBody
        split
        · exact hP
        · split
          · have hd := drive_track key (t.active_steps.drop (index + 1))
              (fun x hx => by rw [← h1]; exact List.mem_of_mem_drop hx) hsid u hP
            exact ⟨hd.1, hd.2.1, hd.2.2.1, hd.2.2.2⟩
          · exact hP
      · intro pc hpc
        rw [lookupA_eraseA_ne _ _ _ (fun he => hrc pc hpc he.symm)]
        exact h4 pc hpc

theorem removal_track {A Pd sid stepv cacheOf} (s : RunnerState RecLog)
    (hsid : sid ∉ A) (hpc : ∀ pc, cacheOf = some pc → pc.1 ∈ Pd)
    (h : trackInv A Pd sid stepv cacheOf s) :
    trackInv A Pd sid stepv cacheOf (removalPass recorder s) := by
  unfold removalPass
  refine foldl_preserve (P := trackInv A Pd sid stepv cacheOf) ?_ _ h
  intro t index hmem hP
  simp only [removalBody]
  split
  · exact hP
  case isFalse hcon =>
    have hidx : index < s.active_steps.length := by
      have h' := List.mem_reverse.mp hmem
      exact List.mem_range.mp h'
    have hA : s.active_steps = A := h.1
    have hrA : t.active_steps.getD index 0 ∈ A := by
      rw [hP.1]
      exact hA ▸ getD_mem_of_lt s.active_steps index hidx
    have hrs : t.active_steps.getD index 0 ≠ sid := fun he => hsid (he ▸ hrA)
    have hrc : ∀ pc, cacheOf = some pc → t.active_steps.getD index 0 ≠ pc.1 := by
      intro pc hc he
      apply hcon
      rw [he]
      rw [hP.2.1]
      exact contains_eq_true_of_mem Pd pc.1 (hpc pc hc)
    exact cleanup_track index _ hrs hrc hsid t hP

theorem executeStepsCore_track {A Pd sid stepv cacheOf} (t : RunnerState RecLog)
    (curr : Nat) (fr : Option Nat) (p : Bool)
    (hsid : sid ∉ A) (hcurr : curr ≠ sid)
    (h : trackInv A Pd sid stepv cacheOf t) :
    trackInv A Pd sid stepv cacheOf (executeStepsCore recorder t curr fr p) := by
  unfold executeStepsCore
  cases p <;> cases fr <;> dsimp only <;> split <;>
    first
      | (refine foldl_preserve (P := trackInv A Pd sid stepv cacheOf) ?_ _
           ⟨h.1, h.2.1, h.2.2.1, h.2.2.2⟩
         intro u tid hmem hP
         have hmem' : tid ∈ A := by
           rw [← h.1]
           exact List.mem_of_mem_drop hmem
         exact execute_step_track u tid (fun he => hsid (he ▸ hmem')) hP)
      | exact execute_step_track _ curr hcurr ⟨h.1, h.2.1, h.2.2.1, h.2.2.2⟩

theorem replayBody_track {A Pd sid stepv cacheOf} (j : Nat) (t : RunnerState RecLog)
    (hsid : sid ∉ A) (hj : Pd.getD j 0 ≠ sid)
    (h : trackInv A Pd sid stepv cacheOf t) :
    trackInv A Pd sid stepv cacheOf (replayBody recorder t j) := by
  simp only [replayBody]
  split
  · exact h
  · split
    · exact h
    · have hcurr : t.pending_steps.getD j 0 ≠ sid := by
        rw [h.2.1]
        exact hj
      exact executeStepsCore_track _ _ none true hsid hcurr
        ⟨h.1, h.2.1, h.2.2.1, h.2.2.2⟩

/-- Concatenating a well-formed cache's per-stream vectors and
filtering back to one stream recovers that stream's vector: the
per-stream order survives the concatenation. -/
theorem flatten_filter_of_wf (c : List (StreamId × List MediaNotification))
    (hwf : ∀ p ∈ c, ∀ m ∈ p.2, m.stream_id = p.1)
    (hnd : (keysA c).Nodup) (Z : StreamId) (l : List MediaNotification)
    (hl : lookupA c Z = some l) :
    ((valuesA c).flatten).filter (fun m => m.stream_id == Z) = l := by
  induction c with
  | nil => simp [lookupA] at hl
  | cons p rest ih =>
      obtain ⟨k, v⟩ := p
      have hwfv : ∀ m ∈ v, m.stream_id = k := fun m hm =>
        hwf (k, v) (List.mem_cons_self _ _) m hm
      have hwfr : ∀ q ∈ rest, ∀ m ∈ q.2, m.stream_id = q.1 := fun q hq =>
        hwf q (List.mem_cons_of_mem _ hq)
      have hnd' := hnd
      simp only [keysA, List.map_cons, List.nodup_cons] at hnd'
      obtain ⟨hndk, hndr⟩ := hnd'
      simp only [valuesA, List.map_cons, List.flatten_cons, List.filter_append]
      by_cases hk : k = Z
      · subst hk
        have h1 : v.filter (fun m => m.stream_id == k) = v := by
          apply List.filter_eq_self.mpr
          intro m hm
          simp [hwfv m hm]
        have h2 : ((List.map Prod.snd rest).flatten).filter (fun m => m.stream_id == k)
            = [] := by
          apply List.filter_eq_nil_iff.mpr
          intro m hm
          obtain ⟨vv, hvv, hmv⟩ := List.mem_flatten.mp hm
          obtain ⟨q, hq, hqv⟩ := List.mem_map.mp hvv
          have hs : m.stream_id = q.1 := hwfr q hq m (by rw [hqv]; exact hmv)
          have hne : m.stream_id ≠ k := by
            rw [hs]
            intro he
            exact hndk (he ▸ List.mem_map_of_mem Prod.fst hq)
          simp [hne]
        rw [h1, h2, List.append_nil]
        exact (by simpa [lookupA] using hl : v = l)
      · have hl' : lookupA rest Z = some l := by
          simpa [lookupA, hk] using hl
        have h1 : v.filter (fun m => m.stream_id == Z) = [] := by
          apply List.filter_eq_nil_iff.mpr
          intro m hm
          simp [hwfv m hm, hk]
        rw [h1, List.nil_append]
        exact ih hwfr hndr hl'

/-- `execute_steps` with no future result, preserved inputs and no
pending check, when the initial step is absent from the active list:
the standalone path. -/
theorem executeStepsCore_none_true_standalone {σ : Type} (exec : StepExec σ)
    (t : RunnerState σ) (curr : Nat)
    (hfind : List.findIdx? (fun x => x == curr) t.active_steps = none) :
    executeStepsCore exec t curr none true
      = execute_step exec { t with step_outputs := emptyOutputs } curr := by
  have h0 : executeStepsCore exec t curr none true
      = match List.findIdx? (fun x => x == curr) t.active_steps with
        | some start =>
            (t.active_steps.drop start).foldl (fun s id => execute_step exec s id)
              { t with step_outputs := emptyOutputs }
        | none => execute_step exec { t with step_outputs := emptyOutputs } curr := rfl
  rw [h0, hfind]

/-- The replay iteration for a new step `sid` at pending position
`i + 1`: the step is standalone-executed on the concatenation of its
predecessor's cached per-stream vectors, which (the log having been
empty) becomes its one observed input batch. -/
theorem replayBody_establish {A Pd : List Nat} {sid pid : Nat}
    {stepS : WorkflowStep RecLog} {c : List (StreamId × List MediaNotification)}
    (i : Nat) (t : RunnerState RecLog)
    (hsid : sid ∉ A) (hlog : stepS.st = [])
    (hsidP : Pd.getD (i + 1) 0 = sid) (hpidP : Pd.getD i 0 = pid)
    (h : trackInv A Pd sid stepS (some (pid, c)) t) :
    trackInv A Pd sid { stepS with st := [(valuesA c).flatten] } none
      (replayBody recorder t (i + 1)) := by
  obtain ⟨h1, h2, h3, h4⟩ := h
  have hcache : lookupA t.cached_step_media pid = some c := h4 (pid, c) rfl
  simp only [replayBody]
  have hcur : t.pending_steps.getD (i + 1) 0 = sid := by
    rw [h2]
    exact hsidP
  have hprev : t.pending_steps.getD (i + 1 - 1) 0 = pid := by
    rw [h2]
    simpa using hpidP
  rw [hcur, hprev]
  rw [show t.active_steps.contains sid = false from by
    rw [h1]; exact contains_eq_false_of_not_mem A sid hsid]
  rw [if_neg (by simp), hcache]
  dsimp only
  rw [executeStepsCore_none_true_standalone recorder _ sid (by
    dsimp only
    rw [h1]
    exact findIdx?_eq_none_of_not_mem A sid hsid)]
  rw [execute_step_recorder]
  dsimp only
  rw [h3]
  refine ⟨h1, h2, ?_, fun pc hpc => by cases hpc⟩
  dsimp only
  rw [lookupA_insertA_self, hlog]
  simp

/-- **C1.** In a swap where the step at pending position `i + 1` is
newly inserted (its id is not in the active list), the runner feeds it
its pending-predecessor's media cache — every cached notification,
concatenated per stream — through `execute_steps`: after the swap the
new step's log (its table entry, steps being pure recorders here)
holds exactly that concatenation as its one observed batch, and for
every stream `Z` the batch restricted to `Z` is exactly the
predecessor's cached vector for `Z`, preserving its order — in
particular `NewIncomingStream` before a cached sequence header.
Hypotheses `hwf`/`hkeys` state that the predecessor's cache is
well-formed (entries are stored under their notification's stream id,
keys unique), and `hlog` that the new step has observed nothing yet —
both hold in every reachable state. -/
theorem c1_cache_replay (s : RunnerState RecLog) (i : Nat)
    (c : List (StreamId × List MediaNotification)) (stepS : WorkflowStep RecLog)
    (hi : i + 1 < s.pending_steps.length)
    (hscan : pendingScan s = some false)
    (hnd : s.pending_steps.Nodup)
    (hnew : s.pending_steps.getD (i + 1) 0 ∉ s.active_steps)
    (hcache : lookupA s.cached_step_media (s.pending_steps.getD i 0) = some c)
    (hstep : lookupA s.steps_by_definition_id (s.pending_steps.getD (i + 1) 0) = some stepS)
    (hlog : stepS.st = [])
    (hwf : ∀ p ∈ c, ∀ m ∈ p.2, m.stream_id = p.1)
    (hkeys : (keysA c).Nodup) :
    (∃ stepS', lookupA (check_if_all_pending_steps_are_active recorder s).steps_by_definition_id
          (s.pending_steps.getD (i + 1) 0) = some stepS'
        ∧ stepS'.st = [(valuesA c).flatten])
      ∧ ∀ Z l, lookupA c Z = some l →
          ((valuesA c).flatten).filter (fun m => m.stream_id == Z) = l := by
  refine ⟨?_, fun Z l hl => flatten_filter_of_wf c hwf hkeys Z l hl⟩
  have hpos : 0 < s.pending_steps.length := by omega
  unfold check_if_all_pending_steps_are_active
  rw [hscan]
  dsimp only
  rw [if_pos ⟨hpos, rfl⟩]
  dsimp only
  have hrem : trackInv s.active_steps s.pending_steps (s.pending_steps.getD (i + 1) 0) stepS
      (some (s.pending_steps.getD i 0, c)) (removalPass recorder s) := by
    refine removal_track s hnew ?_ ⟨rfl, rfl, hstep, ?_⟩
    · intro pc hpc
      rw [← Option.some_inj.mp hpc]
      exact getD_mem_of_lt _ i (by omega)
    · intro pc hpc
      rw [← Option.some_inj.mp hpc]
      exact hcache
  have hp0 : (removalPass recorder s).pending_steps = s.pending_steps := hrem.2.1
  unfold replayPass
  rw [hp0]
  have hsplit : List.range' 1 (s.pending_steps.length - 1)
      = List.range' 1 i ++ (i + 1) :: List.range' (i + 2) (s.pending_steps.length - i - 2) := by
    have e2 : List.range' (1 + i) (s.pending_steps.length - 1 - i)
        = (i + 1) :: List.range' (i + 2) (s.pending_steps.length - i - 2) := by
      have e3 : s.pending_steps.length - 1 - i = (s.pending_steps.length - i - 2) + 1 := by
        omega
      rw [e3, List.range'_succ]
      congr 1
      · omega
      · congr 1
        omega
    have e4 : s.pending_steps.length - 1 = (s.pending_steps.length - 1 - i) + i := by omega
    rw [e4, ← List.range'_append 1 i (s.pending_steps.length - 1 - i) 1]
    congr 1
    rw [show 1 + 1 * i = 1 + i by omega]
    exact e2
  rw [hsplit, List.foldl_append, List.foldl_cons]
  have hpre : trackInv s.active_steps s.pending_steps (s.pending_steps.getD (i + 1) 0) stepS
      (some (s.pending_steps.getD i 0, c))
      ((List.range' 1 i).foldl (replayBody recorder) (removalPass recorder s)) := by
    refine foldl_preserve ?_ _ hrem
    intro u j hj hP
    have hjb := List.mem_range'_1.mp hj
    refine replayBody_track j u hnew ?_ hP
    exact getD_ne_of_nodup s.pending_steps hnd (by omega) (by omega) (by omega)
  have hest := replayBody_establish i _ hnew hlog rfl rfl hpre
  have hsuf : trackInv s.active_steps s.pending_steps (s.pending_steps.getD (i + 1) 0)
      { stepS with st := [(valuesA c).flatten] } none
      ((List.range' (i + 2) (s.pending_steps.length - i - 2)).foldl (replayBody recorder)
        (replayBody recorder ((List.range' 1 i).foldl (replayBody recorder)
          (removalPass recorder s)) (i + 1))) := by
    refine foldl_preserve ?_ _ hest
    intro u j hj hP
    have hjb := List.mem_range'_1.mp hj
    refine replayBody_track j u hnew ?_ hP
    exact getD_ne_of_nodup s.pending_steps hnd (by omega) (by omega) (by omega)
  exact ⟨_, hsuf.2.2.1, rfl⟩

def c1Nis : MediaNotification := { stream_id := "z", content := .newIncomingStream "cam" }

def c1Hdr : MediaNotification :=
  { stream_id := "z", content := .video "h264" false true 0 [1, 2] }

/-- A runner mid-swap for S3: active `[1, 3]`, pending `[1, 2, 3]`
(step 2 newly inserted between 1 and 3), all pending steps `Active`,
and step 1's cache holding `NewIncomingStream` then a video sequence
header for stream `"z"`. -/
def c1wState : RunnerState RecLog :=
  { steps_by_definition_id :=
      [(1, { defId := 1, status := .active, st := [] }),
       (2, { defId := 2, status := .active, st := [] }),
       (3, { defId := 3, status := .active, st := [] })]
    active_steps := [1, 3]
    pending_steps := [1, 2, 3]
    futures := []
    step_inputs := emptyInputs
    step_outputs := emptyOutputs
    cached_step_media := [(1, [("z", [c1Nis, c1Hdr])])]
    active_streams := [("z", { originating_step_id := 1 })] }

/-- Witness for C1: after the swap, the newly inserted step 2 has
observed exactly one batch, `NewIncomingStream` followed by the cached
sequence header, in that order. -/
theorem c1_witness :
    ∃ stepS', lookupA (check_if_all_pending_steps_are_active recorder
        c1wState).steps_by_definition_id 2 = some stepS'
      ∧ stepS'.st = [[c1Nis, c1Hdr]] := by
  have h := c1_cache_replay c1wState 0 [("z", [c1Nis, c1Hdr])]
    { defId := 2, status := .active, st := [] }
    (by decide) (by decide) (by decide) (by decide) (by decide) (by decide) rfl
    (by decide) (by decide)
  obtain ⟨⟨stepS', h1, h2⟩, _⟩ := h
  refine ⟨stepS', by simpa using h1, by rw [h2]; rfl⟩

/-! ## Claim C2: the removal pass of the swap -/

def discNotification (Z : StreamId) : MediaNotification :=
  { stream_id := Z, content := .streamDisconnected }

theorem foldl_establish {α : Type u} {β : Type v} {P Q : α → Prop} {f : α → β → α}
    {l : List β} {x : β} (hx : x ∈ l)
    (hQ : ∀ s b, b ∈ l → Q s → Q (f s b))
    (hE : ∀ s, Q s → P (f s x))
    (hP : ∀ s b, b ∈ l → P s → Q s → P (f s b)) :
    ∀ s, Q s → P (l.foldl f s) ∧ Q (l.foldl f s) := by
  obtain ⟨l1, l2, rfl⟩ := List.append_of_mem hx
  intro s hs
  rw [List.foldl_append, List.foldl_cons]
  have hm1 : ∀ b, b ∈ l1 → b ∈ l1 ++ x :: l2 := fun b hb =>
    List.mem_append_left _ hb
  have hm2 : ∀ b, b ∈ l2 → b ∈ l1 ++ x :: l2 := fun b hb =>
    List.mem_append_right _ (List.mem_cons_of_mem _ hb)
  have hQ1 : Q (l1.foldl f s) :=
    foldl_preserve (fun u b hb => hQ u b (hm1 b hb)) _ hs
  have hP1 : P (f (l1.foldl f s) x) := hE _ hQ1
  have hQx : Q (f (l1.foldl f s) x) := hQ _ x hx hQ1
  exact foldl_preserve (P := fun u => P u ∧ Q u)
    (fun u b hb hPQ => ⟨hP u b (hm2 b hb) hPQ.1 hPQ.2, hQ u b (hm2 b hb) hPQ.2⟩)
    _ ⟨hP1, hQx⟩

theorem lookupA_eraseA_none [DecidableEq κ] {l : List (κ × ν)} {k : κ} (W : κ)
    (h : lookupA l k = none) : lookupA (eraseA l W) k = none := by
  rw [lookupA_eraseA]
  by_cases hk : k = W
  · rw [if_pos hk]
  · rw [if_neg hk]
    exact h

theorem execute_step_exists_table {σ : Type} (exec : StepExec σ) (t : RunnerState σ)
    (tid q : Nat) (h : ∃ st, lookupA t.steps_by_definition_id q = some st) :
    ∃ st, lookupA (execute_step exec t tid).steps_by_definition_id q = some st := by
  cases htid : lookupA t.steps_by_definition_id tid with
  | none => simpa [execute_step, htid] using h
  | some step =>
      rw [execute_step_eq exec t tid step htid]
      dsimp only
      exact exists_lookupA_insertA tid _ h

theorem pendingScan_mem_table {σ : Type} (table : List (Nat × WorkflowStep σ)) :
    ∀ (pend : List Nat) (acc bb : Bool), pendingScanList table pend acc = some bb →
      ∀ id ∈ pend, ∃ st, lookupA table id = some st := by
  intro pend
  induction pend with
  | nil => intro acc bb _ id hid; exact absurd hid (List.not_mem_nil id)
  | cons p rest ih =>
      intro acc bb h id hid
      simp only [pendingScanList] at h
      cases hp : lookupA table p with
      | none => rw [hp] at h; exact absurd h (by simp)
      | some step =>
          rw [hp] at h
          dsimp only at h
          rcases List.mem_cons.mp hid with he | hm
          · exact ⟨step, he ▸ hp⟩
          · cases hst : step.status with
            | created => rw [hst] at h; exact ih true bb h id hm
            | active => rw [hst] at h; exact ih acc bb h id hm
            | error => rw [hst] at h; exact absurd h (by simp)

/-- The facts carried up to the removal of step `r` at active position
`k`: the id lists, stream `Z` still registered to `r`, `r`'s cache
(containing `Z`), and the presence of the surviving right-hand step
`b` in the table. -/
def C2Pre (A Pd : List Nat) (r b : Nat) (Z : StreamId)
    (cr : List (StreamId × List MediaNotification)) (t : RunnerState RecLog) : Prop :=
  t.active_steps = A ∧ t.pending_steps = Pd
    ∧ lookupA t.active_streams Z = some { originating_step_id := r }
    ∧ lookupA t.cached_step_media r = some cr
    ∧ ∃ stB, lookupA t.steps_by_definition_id b = some stB

/-- The facts carried from the removal of `r` to the end of the swap:
`r` is gone from the table and the cache, stream `Z` is gone from the
active streams, and `b`'s log contains the synthesized disconnect
batch. -/
def C2Post (A Pd : List Nat) (r b : Nat) (Z : StreamId) (t : RunnerState RecLog) : Prop :=
  t.active_steps = A ∧ t.pending_steps = Pd
    ∧ lookupA t.steps_by_definition_id r = none
    ∧ lookupA t.cached_step_media r = none
    ∧ lookupA t.active_streams Z = none
    ∧ ∃ stB, lookupA t.steps_by_definition_id b = some stB
        ∧ [discNotification Z] ∈ stB.st

theorem execute_step_recorder_C2Pre {A Pd r b Z cr} (t : RunnerState RecLog) (tid : Nat)
    (h : C2Pre A Pd r b Z cr t) : C2Pre A Pd r b Z cr (execute_step recorder t tid) := by
  obtain ⟨h1, h2, h3, h4, h5⟩ := h
  obtain ⟨l1, l2⟩ := execute_step_lists recorder t tid
  refine ⟨l1.trans h1, l2.trans h2, ?_, ?_, ?_⟩
  · rw [execute_step_recorder_streams]
    exact h3
  · exact execute_step_recorder_cache t tid r cr h4
  · exact execute_step_exists_table recorder t tid b h5

theorem execute_step_recorder_C2Post {A Pd r b Z} (t : RunnerState RecLog) (tid : Nat)
    (h : C2Post A Pd r b Z t) : C2Post A Pd r b Z (execute_step recorder t tid) := by
  obtain ⟨h1, h2, h3, h4, h5, stB, hb, hbl⟩ := h
  obtain ⟨l1, l2⟩ := execute_step_lists recorder t tid
  obtain ⟨stB', hb', hbl'⟩ := execute_step_recorder_log_mem t tid b stB _ hb hbl
  refine ⟨l1.trans h1, l2.trans h2, execute_step_table_none recorder t tid r h3,
    execute_step_cache_none recorder t tid r h3 h4, ?_, stB', hb', hbl'⟩
  rw [execute_step_recorder_streams]
  exact h5

theorem drive_C2Pre {A Pd r b Z cr} (key : StreamId) (targets : List Nat)
    (t : RunnerState RecLog) (h : C2Pre A Pd r b Z cr t) :
    C2Pre A Pd r b Z cr (driveStreamDisconnected recorder t key targets) := by
  unfold driveStreamDisconnected
  refine foldl_preserve (P := C2Pre A Pd r b Z cr) ?_ _ h
  intro u tid _ hP
  simp only [driveBody]
  exact execute_step_recorder_C2Pre _ tid ⟨hP.1, hP.2.1, hP.2.2.1, hP.2.2.2.1, hP.2.2.2.2⟩

theorem drive_C2Post {A Pd r b Z} (key : StreamId) (targets : List Nat)
    (t : RunnerState RecLog) (h : C2Post A Pd r b Z t) :
    C2Post A Pd r b Z (driveStreamDisconnected recorder t key targets) := by
  unfold driveStreamDisconnected
  refine foldl_preserve (P := C2Post A Pd r b Z) ?_ _ h
  intro u tid _ hP
  simp only [driveBody]
  exact execute_step_recorder_C2Post _ tid
    ⟨hP.1, hP.2.1, hP.2.2.1, hP.2.2.2.1, hP.2.2.2.2.1, hP.2.2.2.2.2⟩

theorem cleanupKeyBody_C2Pre {A Pd r b Z cr} (rr : Nat) (targets : List Nat)
    (key : StreamId) (hrr : rr ≠ r) (t : RunnerState RecLog)
    (h : C2Pre A Pd r b Z cr t) :
    C2Pre A Pd r b Z cr (cleanupKeyBody recorder rr targets t key) := by
  unfold cleanupKeyBody
  cases hk : lookupA t.active_streams key with
  | none => exact h
  | some stream =>
      dsimp only
      by_cases ho : stream.originating_step_id = rr
      · rw [if_pos ho]
        have hd := drive_C2Pre key targets t h
        obtain ⟨d1, d2, d3, d4, d5⟩ := hd
        have hkz : key ≠ Z := by
          intro he
          rw [he] at hk
          rw [h.2.2.1] at hk
          have : stream = { originating_step_id := r } := Option.some_inj.mp hk.symm
          rw [this] at ho
          exact hrr ho.symm
        refine ⟨d1, d2, ?_, d4, d5⟩
        dsimp only
        rw [lookupA_eraseA_ne _ _ _ (fun he => hkz he.symm)]
        exact d3
      · rw [if_neg ho]
        exact h

theorem cleanupKeyBody_C2Post {A Pd r b Z} (rr : Nat) (targets : List Nat)
    (key : StreamId) (t : RunnerState RecLog) (h : C2Post A Pd r b Z t) :
    C2Post A Pd r b Z (cleanupKeyBody recorder rr targets t key) := by
  unfold cleanupKeyBody
  cases hk : lookupA t.active_streams key with
  | none => exact h
  | some stream =>
      dsimp only
      by_cases ho : stream.originating_step_id = rr
      · rw [if_pos ho]
        have hd := drive_C2Post key targets t h
        obtain ⟨d1, d2, d3, d4, d5, stB, hb, hbl⟩ := hd
        refine ⟨d1, d2, d3, d4, ?_, stB, hb, hbl⟩
        dsimp only
        exact lookupA_eraseA_none key d5
      · rw [if_neg ho]
        exact h

theorem drive_recorder_streams (key : StreamId) (targets : List Nat)
    (t : RunnerState RecLog) :
    (driveStreamDisconnected recorder t key targets).active_streams = t.active_streams := by
  unfold driveStreamDisconnected
  refine foldl_preserve
    (P := fun u : RunnerState RecLog => u.active_streams = t.active_streams) ?_ _ rfl
  intro u tid _ hP
  simp only [driveBody]
  rw [execute_step_recorder_streams]
  exact hP

theorem drive_rnones (key : StreamId) (targets : List Nat) (r : Nat)
    (t : RunnerState RecLog) (h3 : lookupA t.steps_by_definition_id r = none)
    (h4 : lookupA t.cached_step_media r = none) :
    lookupA (driveStreamDisconnected recorder t key targets).steps_by_definition_id r = none
      ∧ lookupA (driveStreamDisconnected recorder t key targets).cached_step_media r
          = none := by
  unfold driveStreamDisconnected
  refine foldl_preserve (P := fun u : RunnerState RecLog =>
    lookupA u.steps_by_definition_id r = none ∧ lookupA u.cached_step_media r = none)
    ?_ _ ⟨h3, h4⟩
  intro u tid _ hP
  simp only [driveBody]
  exact ⟨execute_step_table_none recorder _ tid r hP.1,
    execute_step_cache_none recorder _ tid r hP.1 hP.2⟩

theorem drive_exists_table (key : StreamId) (targets : List Nat) (q : Nat)
    (t : RunnerState RecLog) (h : ∃ st, lookupA t.steps_by_definition_id q = some st) :
    ∃ st, lookupA (driveStreamDisconnected recorder t key targets).steps_by_definition_id q
      = some st := by
  unfold driveStreamDisconnected
  refine foldl_preserve (P := fun u : RunnerState RecLog =>
    ∃ st, lookupA u.steps_by_definition_id q = some st) ?_ _ h
  intro u tid _ hP
  simp only [driveBody]
  exact execute_step_exists_table recorder _ tid q hP

theorem drive_log_pres (key : StreamId) (targets : List Nat) (q : Nat)
    (batch : List MediaNotification) (t : RunnerState RecLog)
    (h : ∃ stB, lookupA t.steps_by_definition_id q = some stB ∧ batch ∈ stB.st) :
    ∃ stB, lookupA (driveStreamDisconnected recorder t key targets).steps_by_definition_id q
      = some stB ∧ batch ∈ stB.st := by
  unfold driveStreamDisconnected
  refine foldl_preserve (P := fun u : RunnerState RecLog =>
    ∃ stB, lookupA u.steps_by_definition_id q = some stB ∧ batch ∈ stB.st) ?_ _ h
  intro u tid _ hP
  obtain ⟨stB, hb, hbl⟩ := hP
  simp only [driveBody]
  exact execute_step_recorder_log_mem _ tid q stB batch hb hbl

/-- Driving the synthesized disconnect for `key` through `targets`
containing the surviving step `b` records the batch `[disconnect key]`
in `b`'s log. -/
theorem drive_log_establish (key : StreamId) (targets : List Nat) (b : Nat)
    (hb : b ∈ targets) (t : RunnerState RecLog)
    (hstB : ∃ stB, lookupA t.steps_by_definition_id b = some stB) :
    ∃ stB', lookupA (driveStreamDisconnected recorder t key targets).steps_by_definition_id b
      = some stB' ∧ [discNotification key] ∈ stB'.st := by
  unfold driveStreamDisconnected
  refine (foldl_establish (P := fun u : RunnerState RecLog =>
      ∃ stB, lookupA u.steps_by_definition_id b = some stB
        ∧ [discNotification key] ∈ stB.st)
    (Q := fun u : RunnerState RecLog =>
      ∃ stB, lookupA u.steps_by_definition_id b = some stB)
    hb ?_ ?_ ?_ _ hstB).1
  · intro u tid _ hQu
    simp only [driveBody]
    exact execute_step_exists_table recorder _ tid b hQu
  · intro u hQu
    obtain ⟨stB, hstB⟩ := hQu
    simp only [driveBody]
    rw [execute_step_recorder]
    dsimp only
    rw [hstB]
    dsimp only
    refine ⟨_, lookupA_insertA_self _ _ _, ?_⟩
    exact List.mem_append_right _ (List.mem_cons_self _ _)
  · intro u tid _ hPu _
    obtain ⟨stB, hbl, hm⟩ := hPu
    simp only [driveBody]
    exact execute_step_recorder_log_mem _ tid b stB _ hbl hm

/-- The invariant carried through the per-key loop of the removal of
step `r`: the id lists, `r` gone from table and cache, and stream `Z`
either still registered to `r` with `b` present in the table, or
already disconnected with the synthesized batch in `b`'s log. -/
def C2Mid (A Pd : List Nat) (r b : Nat) (Z : StreamId) (t : RunnerState RecLog) : Prop :=
  t.active_steps = A ∧ t.pending_steps = Pd
    ∧ lookupA t.steps_by_definition_id r = none
    ∧ lookupA t.cached_step_media r = none
    ∧ ((lookupA t.active_streams Z = some { originating_step_id := r }
          ∧ ∃ stB, lookupA t.steps_by_definition_id b = some stB)
        ∨ (lookupA t.active_streams Z = none
            ∧ ∃ stB, lookupA t.steps_by_definition_id b = some stB
                ∧ [discNotification Z] ∈ stB.st))

theorem cleanupKeyBody_C2Mid {A Pd r b Z} (targets : List Nat) (key : StreamId)
    (hbt : b ∈ targets) (t : RunnerState RecLog) (h : C2Mid A Pd r b Z t) :
    C2Mid A Pd r b Z (cleanupKeyBody recorder r targets t key) := by
  obtain ⟨h1, h2, h3, h4, hdis⟩ := h
  unfold cleanupKeyBody
  cases hk : lookupA t.active_streams key with
  | none => exact ⟨h1, h2, h3, h4, hdis⟩
  | some stream =>
      dsimp only
      by_cases ho : stream.originating_step_id = r
      · rw [if_pos ho]
        obtain ⟨dl1, dl2⟩ := driveStreamDisconnected_lists recorder key targets t
        obtain ⟨dr1, dr2⟩ := drive_rnones key targets r t h3 h4
        refine ⟨dl1.trans h1, dl2.trans h2, dr1, dr2, ?_⟩
        by_cases hkZ : key = Z
        · subst hkZ
          rcases hdis with ⟨hZs, hstB⟩ | ⟨hZn, hstB⟩
          · exact Or.inr ⟨lookupA_eraseA_self _ _,
              drive_log_establish key targets b hbt t hstB⟩
          · rw [hZn] at hk
            exact absurd hk (by simp)
        · have hsZ :
              lookupA (eraseA (driveStreamDisconnected recorder t key
                targets).active_streams key) Z
              = lookupA t.active_streams Z := by
            rw [lookupA_eraseA_ne _ _ _ (Ne.symm hkZ), drive_recorder_streams]
          rcases hdis with ⟨hZs, hstB⟩ | ⟨hZn, hstB⟩
          · exact Or.inl ⟨hsZ.trans hZs, drive_exists_table key targets b t hstB⟩
          · exact Or.inr ⟨hsZ.trans hZn, drive_log_pres key targets b _ t hstB⟩
      · rw [if_neg ho]
        exact ⟨h1, h2, h3, h4, hdis⟩

/-- Processing the key `Z` itself in the per-key loop settles the
second disjunct of the invariant: the stream is erased and `b`'s log
holds the synthesized disconnect batch. -/
theorem cleanupKeyBody_Z_establish {A Pd r b Z} (targets : List Nat)
    (hbt : b ∈ targets) (t : RunnerState RecLog) (h : C2Mid A Pd r b Z t) :
    C2Post A Pd r b Z (cleanupKeyBody recorder r targets t Z) := by
  obtain ⟨h1, h2, h3, h4, hdis⟩ := h
  unfold cleanupKeyBody
  rcases hdis with ⟨hZs, hstB⟩ | ⟨hZn, hstB⟩
  · rw [hZs]
    dsimp only
    rw [if_pos rfl]
    obtain ⟨dl1, dl2⟩ := driveStreamDisconnected_lists recorder Z targets t
    obtain ⟨dr1, dr2⟩ := drive_rnones Z targets r t h3 h4
    exact ⟨dl1.trans h1, dl2.trans h2, dr1, dr2, lookupA_eraseA_self _ _,
      drive_log_establish Z targets b hbt t hstB⟩
  · rw [hZn]
    exact ⟨h1, h2, h3, h4, hZn, hstB⟩

/-- Removing step `r` itself (position `k`, cache `cr` containing `Z`,
with `b` an active step to the right) establishes the post-removal
facts. -/
theorem removeStepCleanup_establish {A Pd r b Z cr} (k : Nat)
    (t : RunnerState RecLog) (h : C2Pre A Pd r b Z cr t) (hbr : b ≠ r)
    (hZcr : containsA cr Z = true) (hbt : b ∈ t.active_steps.drop (k + 1)) :
    C2Post A Pd r b Z (removeStepCleanup recorder t k r) := by
  obtain ⟨h1, h2, h3, h4, stB, h5⟩ := h
  unfold removeStepCleanup
  dsimp only
  rw [h4]
  dsimp only
  have hZk : Z ∈ keysA cr := mem_keysA_of_containsA cr Z hZcr
  refine (foldl_establish (P := C2Post A Pd r b Z) (Q := C2Mid A Pd r b Z) hZk
    ?_ ?_ ?_ _ ?_).1
  · intro u key _ hQ
    exact cleanupKeyBody_C2Mid _ key hbt u hQ
  · intro u hQ
    exact cleanupKeyBody_Z_establish _ hbt u hQ
  · intro u key _ hP _
    exact cleanupKeyBody_C2Post r _ key u hP
  · refine ⟨h1, h2, lookupA_eraseA_self _ _, lookupA_eraseA_self _ _, Or.inl ⟨h3, stB, ?_⟩⟩
    rw [lookupA_eraseA_ne _ _ _ hbr]
    exact h5

/-- Removing a step other than `r` (and other than `b`) in the removal
pass preserves the pre-removal facts. -/
theorem removeStepCleanup_C2Pre {A Pd r b Z cr} (idx rr : Nat)
    (hrr : rr ≠ r) (hrb : rr ≠ b) (t : RunnerState RecLog)
    (h : C2Pre A Pd r b Z cr t) :
    C2Pre A Pd r b Z cr (removeStepCleanup recorder t idx rr) := by
  obtain ⟨h1, h2, h3, h4, stB, h5⟩ := h
  have h5' : lookupA (eraseA t.steps_by_definition_id rr) b = some stB := by
    rw [lookupA_eraseA_ne _ _ _ (Ne.symm hrb)]
    exact h5
  unfold removeStepCleanup
  dsimp only
  split
  · exact ⟨h1, h2, h3, h4, stB, h5'⟩
  · refine foldl_preserve (P := C2Pre A Pd r b Z cr) ?_ _
      ⟨h1, h2, h3, ?_, stB, h5'⟩
    · intro u key _ hP
      exact cleanupKeyBody_C2Pre rr _ key hrr u hP
    · dsimp only
      rw [lookupA_eraseA_ne _ _ _ (Ne.symm hrr)]
      exact h4

theorem removalBody_C2Pre {A Pd r b Z cr} (k idx : Nat)
    (hnd : A.Nodup) (hk : k < A.length) (hkA : A.getD k 0 = r) (hbp : b ∈ Pd)
    (hidx : idx ≠ k) (hidxlen : idx < A.length)
    (t : RunnerState RecLog) (h : C2Pre A Pd r b Z cr t) :
    C2Pre A Pd r b Z cr (removalBody recorder t idx) := by
  unfold removalBody
  dsimp only
  by_cases hc : t.pending_steps.contains (t.active_steps.getD idx 0) = true
  · rw [if_pos hc]
    exact h
  · rw [if_neg hc]
    have hrr : t.active_steps.getD idx 0 ≠ r := by
      rw [h.1, ← hkA]
      exact getD_ne_of_nodup A hnd hidxlen hk hidx
    have hrb : t.active_steps.getD idx 0 ≠ b := by
      intro he
      apply hc
      rw [he, h.2.1]
      exact contains_eq_true_of_mem Pd b hbp
    exact removeStepCleanup_C2Pre idx _ hrr hrb t h

/-- After `r`'s removal, cleaning up further steps (which are never the
pending step `b`) preserves the post-removal facts. -/
theorem removeStepCleanup_C2Post {A Pd r b Z} (idx rr : Nat) (hrb : rr ≠ b)
    (t : RunnerState RecLog) (h : C2Post A Pd r b Z t) :
    C2Post A Pd r b Z (removeStepCleanup recorder t idx rr) := by
  obtain ⟨h1, h2, h3, h4, h5, stB, h6, h7⟩ := h
  have h6' : lookupA (eraseA t.steps_by_definition_id rr) b = some stB := by
    rw [lookupA_eraseA_ne _ _ _ (Ne.symm hrb)]
    exact h6
  unfold removeStepCleanup
  dsimp only
  split
  · exact ⟨h1, h2, lookupA_eraseA_none rr h3, h4, h5, stB, h6', h7⟩
  · refine foldl_preserve (P := C2Post A Pd r b Z) ?_ _
      ⟨h1, h2, lookupA_eraseA_none rr h3, ?_, h5, stB, h6', h7⟩
    · intro u key _ hP
      exact cleanupKeyBody_C2Post rr _ key u hP
    · dsimp only
      exact lookupA_eraseA_none rr h4

theorem removalBody_C2Post {A Pd r b Z} (idx : Nat) (hbp : b ∈ Pd)
    (t : RunnerState RecLog) (h : C2Post A Pd r b Z t) :
    C2Post A Pd r b Z (removalBody recorder t idx) := by
  unfold removalBody
  dsimp only
  by_cases hc : t.pending_steps.contains (t.active_steps.getD idx 0) = true
  · rw [if_pos hc]
    exact h
  · rw [if_neg hc]
    have hrb : t.active_steps.getD idx 0 ≠ b := by
      intro he
      apply hc
      rw [he, h.2.1]
      exact contains_eq_true_of_mem Pd b hbp
    exact removeStepCleanup_C2Post idx _ hrb t h

/-- The reversed index list of the removal pass, split at position `k`:
first the indices above `k` (descending), then `k`, then the rest. -/
theorem range_reverse_split (n k : Nat) (hk : k < n) :
    (List.range n).reverse
      = (List.range' (k + 1) (n - k - 1)).reverse ++ k :: (List.range k).reverse := by
  have h1 : List.range' 0 k ++ List.range' k (n - k) = List.range' 0 n := by
    have h := List.range'_append 0 k (n - k) 1
    rw [show 0 + 1 * k = k by omega] at h
    rw [show n - k + k = n by omega] at h
    exact h
  have h2 : List.range' k (n - k) = k :: List.range' (k + 1) (n - k - 1) := by
    nth_rewrite 1 [show n - k = (n - k - 1) + 1 by omega]
    rw [List.range'_succ]
  rw [List.range_eq_range', ← h1, h2, List.reverse_append, List.reverse_cons,
    List.range_eq_range', List.append_assoc, List.singleton_append]

/-- The removal pass: indices above `k` preserve the pre-facts, index
`k` removes `r` and establishes the post-facts, indices below `k`
preserve them. -/
theorem removalPass_c2 {A Pd r b Z cr} (k j : Nat)
    (hnd : A.Nodup) (hk : k < A.length) (hkA : A.getD k 0 = r)
    (hrnp : r ∉ Pd) (hbp : b ∈ Pd) (hZcr : containsA cr Z = true)
    (hkj : k < j) (hj : j < A.length) (hjA : A.getD j 0 = b)
    (s : RunnerState RecLog) (h : C2Pre A Pd r b Z cr s) :
    C2Post A Pd r b Z (removalPass recorder s) := by
  have hbr : b ≠ r := by
    intro he
    exact hrnp (he ▸ hbp)
  unfold removalPass
  rw [h.1, range_reverse_split A.length k hk, List.foldl_append, List.foldl_cons]
  have hpre1 : C2Pre A Pd r b Z cr
      ((List.range' (k + 1) (A.length - k - 1)).reverse.foldl (removalBody recorder) s) := by
    refine foldl_preserve (P := C2Pre A Pd r b Z cr) ?_ _ h
    intro u idx hidx hP
    rw [List.mem_reverse, List.mem_range'_1] at hidx
    exact removalBody_C2Pre k idx hnd hk hkA hbp (by omega) (by omega) u hP
  set s1 := (List.range' (k + 1) (A.length - k - 1)).reverse.foldl (removalBody recorder) s
  have hA : A[j] = b := by
    rw [List.getD_eq_getElem?_getD, List.getElem?_eq_getElem hj] at hjA
    simpa using hjA
  have hbt : b ∈ s1.active_steps.drop (k + 1) := by
    rw [hpre1.1]
    have hsome : (A.drop (k + 1))[j - (k + 1)]? = some b := by
      rw [List.getElem?_drop, show k + 1 + (j - (k + 1)) = j by omega,
        List.getElem?_eq_getElem hj, hA]
    exact List.getElem?_mem hsome
  have hstep : removalBody recorder s1 k = removeStepCleanup recorder s1 k r := by
    unfold removalBody
    dsimp only
    have hid : s1.active_steps.getD k 0 = r := by
      rw [hpre1.1]
      exact hkA
    rw [hid, if_neg]
    rw [hpre1.2.1]
    intro hc
    rw [contains_eq_false_of_not_mem Pd r hrnp] at hc
    exact absurd hc (by simp)
  rw [hstep]
  have hpost : C2Post A Pd r b Z (removeStepCleanup recorder s1 k r) :=
    removeStepCleanup_establish k s1 hpre1 hbr hZcr hbt
  refine foldl_preserve (P := C2Post A Pd r b Z) ?_ _ hpost
  intro u idx _ hP
  exact removalBody_C2Post idx hbp u hP

theorem executeStepsCore_C2Post {A Pd r b Z} (t : RunnerState RecLog)
    (i : Nat) (fr : Option Nat) (p : Bool) (h : C2Post A Pd r b Z t) :
    C2Post A Pd r b Z (executeStepsCore recorder t i fr p) := by
  obtain ⟨h1, h2, h3, h4, h5, stB, h6, h7⟩ := h
  unfold executeStepsCore
  cases p <;> cases fr <;> dsimp only <;> split <;>
    first
      | exact foldl_preserve (P := C2Post A Pd r b Z)
          (fun u tid _ hP => execute_step_recorder_C2Post u tid hP) _
          ⟨h1, h2, h3, h4, h5, stB, h6, h7⟩
      | exact execute_step_recorder_C2Post _ _ ⟨h1, h2, h3, h4, h5, stB, h6, h7⟩

theorem replayBody_C2Post {A Pd r b Z} (t : RunnerState RecLog) (idx : Nat)
    (h : C2Post A Pd r b Z t) : C2Post A Pd r b Z (replayBody recorder t idx) := by
  obtain ⟨h1, h2, h3, h4, h5, stB, h6, h7⟩ := h
  unfold replayBody
  dsimp only
  split
  · exact ⟨h1, h2, h3, h4, h5, stB, h6, h7⟩
  · split
    · exact ⟨h1, h2, h3, h4, h5, stB, h6, h7⟩
    · exact executeStepsCore_C2Post _ _ _ _ ⟨h1, h2, h3, h4, h5, stB, h6, h7⟩

theorem replayPass_C2Post {A Pd r b Z} (t : RunnerState RecLog)
    (h : C2Post A Pd r b Z t) : C2Post A Pd r b Z (replayPass recorder t) := by
  unfold replayPass
  refine foldl_preserve (P := C2Post A Pd r b Z) ?_ _ h
  intro u idx _ hP
  exact replayBody_C2Post u idx hP

/-- Claim C2: during a swap (here: the `check_if_all_pending_steps_are_active`
call with the scan reporting no step still `Created` and a non-empty
pending list), an active step `r` at position `k` that is not pending is
deleted from the step table, its media cache is dropped, and for a
stream `Z` of its cache registered as originating from `r`, a synthesized
`StreamDisconnected` is driven through the active steps to the right —
in particular the surviving pending step `b` at position `j > k`
observes the batch `[StreamDisconnected Z]` — and `Z` is removed from
the active-streams map. -/
theorem c2_removal (s : RunnerState RecLog) (k j r b : Nat) (Z : StreamId)
    (cr : List (StreamId × List MediaNotification))
    (hscan : pendingScan s = some false)
    (hpos : 0 < s.pending_steps.length)
    (hnd : s.active_steps.Nodup)
    (hk : k < s.active_steps.length)
    (hkA : s.active_steps.getD k 0 = r)
    (hrnp : r ∉ s.pending_steps)
    (hkj : k < j)
    (hj : j < s.active_steps.length)
    (hjA : s.active_steps.getD j 0 = b)
    (hbp : b ∈ s.pending_steps)
    (hZ : lookupA s.active_streams Z = some { originating_step_id := r })
    (hcr : lookupA s.cached_step_media r = some cr)
    (hZcr : containsA cr Z = true) :
    lookupA (check_if_all_pending_steps_are_active recorder
        s).steps_by_definition_id r = none
      ∧ lookupA (check_if_all_pending_steps_are_active recorder
          s).cached_step_media r = none
      ∧ lookupA (check_if_all_pending_steps_are_active recorder
          s).active_streams Z = none
      ∧ ∃ stB, lookupA (check_if_all_pending_steps_are_active recorder
            s).steps_by_definition_id b = some stB
          ∧ [discNotification Z] ∈ stB.st := by
  have hbtab : ∃ stB, lookupA s.steps_by_definition_id b = some stB :=
    pendingScan_mem_table s.steps_by_definition_id s.pending_steps false false hscan b hbp
  have hpre : C2Pre s.active_steps s.pending_steps r b Z cr s := ⟨rfl, rfl, hZ, hcr, hbtab⟩
  have hpost := replayPass_C2Post _
    (removalPass_c2 k j hnd hk hkA hrnp hbp hZcr hkj hj hjA s hpre)
  unfold check_if_all_pending_steps_are_active
  rw [hscan]
  dsimp only
  rw [if_pos ⟨hpos, rfl⟩]
  dsimp only
  exact ⟨hpost.2.2.1, hpost.2.2.2.1, hpost.2.2.2.2.1, hpost.2.2.2.2.2⟩

/-- A runner mid-swap for S4: active `[10, 20]`, pending `[20]` (step
10 dropped by the new definition), step 20 `Active`, stream `"z"`
originating from step 10 with a cache entry at step 10. -/
def c2wState : RunnerState RecLog :=
  { steps_by_definition_id :=
      [(10, { defId := 10, status := .active, st := [] }),
       (20, { defId := 20, status := .active, st := [] })]
    active_steps := [10, 20]
    pending_steps := [20]
    futures := []
    step_inputs := emptyInputs
    step_outputs := emptyOutputs
    cached_step_media := [(10, [("z", [])])]
    active_streams := [("z", { originating_step_id := 10 })] }

/-- Witness for C2: after the swap, step 10 and its cache are gone,
stream `"z"` is gone, and step 20 has observed the synthesized
`StreamDisconnected` batch. -/
theorem c2_witness :
    lookupA (check_if_all_pending_steps_are_active recorder
        c2wState).steps_by_definition_id 10 = none
      ∧ lookupA (check_if_all_pending_steps_are_active recorder
          c2wState).cached_step_media 10 = none
      ∧ lookupA (check_if_all_pending_steps_are_active recorder
          c2wState).active_streams "z" = none
      ∧ ∃ stB, lookupA (check_if_all_pending_steps_are_active recorder
            c2wState).steps_by_definition_id 20 = some stB
          ∧ [discNotification "z"] ∈ stB.st :=
  c2_removal c2wState 0 1 10 20 "z" [("z", [])]
    rfl (by decide) (by decide) (by decide) rfl (by decide) (by decide) (by decide)
    rfl (by decide) rfl rfl rfl
